import Mathlib

/-!
Verification development for the PegasusSimulator Isaac-4.5 migration scripts
(`migrate_to_isaac_4.5.py`, `fix_ardupilot_for_isaac_4.5.py`).

Strings are modelled as `List Char` (`Str`).  `re.sub`/`re.findall` with a
fully-escaped literal pattern are modelled by a leftmost, non-overlapping
literal scanner (`replaceLit` / `litMatches`).  The one genuine regex of the
repository (the TOML rule, which uses `\s*`) gets its own deterministic
matcher (`matchToml`), and the DOTALL non-greedy function-replacement regex of
`fix_vehicle_file` gets `matchFix2`.  The filesystem is a total map from paths
to file entries; `MigrationTool` state and the per-file migration functions
are translated statement by statement from the source.
-/

namespace Migration

abbrev Str := List Char

/-! ## Literal pattern engine: `re.sub`, `re.findall` for escaped-literal patterns

Python's `re.sub(p, r, s)` with a literal pattern replaces every
non-overlapping occurrence of `p`, scanning left to right.  The recursion
consumes `p.length` characters on a match, so we thread a character budget
(`fuel`) to keep the definition structurally recursive (and hence directly
evaluable by `decide`/`rfl`).  `fuel ≥ s.length` makes the budget irrelevant.
-/

def replaceLitAux (p r : Str) : Nat → Str → Str
  | _, [] => []
  | 0, s => s
  | fuel + 1, c :: t =>
    if p ≠ [] ∧ p <+: (c :: t) then
      r ++ replaceLitAux p r fuel ((c :: t).drop p.length)
    else
      c :: replaceLitAux p r fuel t

def replaceLit (p r s : Str) : Str := replaceLitAux p r s.length s

/-- `re.findall` for a literal pattern: the list of matched substrings,
leftmost first, non-overlapping (every element is the literal itself). -/
def litMatchesAux (p : Str) : Nat → Str → List Str
  | _, [] => []
  | 0, _ => []
  | fuel + 1, c :: t =>
    if p ≠ [] ∧ p <+: (c :: t) then
      (c :: t).take p.length :: litMatchesAux p fuel ((c :: t).drop p.length)
    else
      litMatchesAux p fuel t

def litMatches (p s : Str) : List Str := litMatchesAux p s.length s

lemma replaceLitAux_fuel (p r : Str) :
    ∀ (n m : Nat) (s : Str), s.length ≤ n → s.length ≤ m →
      replaceLitAux p r n s = replaceLitAux p r m s := by
  intro n
  induction n with
  | zero =>
    intro m s hn _
    have : s = [] := List.length_eq_zero.mp (Nat.le_zero.mp hn)
    subst this
    cases m <;> rfl
  | succ n ih =>
    intro m s hn hm
    cases s with
    | nil => cases m <;> rfl
    | cons c t =>
      cases m with
      | zero => simp at hm
      | succ m =>
        simp only [replaceLitAux]
        by_cases h : p ≠ [] ∧ p <+: (c :: t)
        · simp only [if_pos h]
          have hp : 1 ≤ p.length := by
            cases p with
            | nil => exact absurd rfl h.1
            | cons a b => simp
          have hd : ((c :: t).drop p.length).length ≤ n := by
            simp only [List.length_drop, List.length_cons]
            simp only [List.length_cons] at hn
            omega
          have hd' : ((c :: t).drop p.length).length ≤ m := by
            simp only [List.length_drop, List.length_cons]
            simp only [List.length_cons] at hm
            omega
          rw [ih m _ hd hd']
        · simp only [if_neg h]
          simp only [List.length_cons] at hn hm
          rw [ih m t (by omega) (by omega)]

lemma litMatchesAux_fuel (p : Str) :
    ∀ (n m : Nat) (s : Str), s.length ≤ n → s.length ≤ m →
      litMatchesAux p n s = litMatchesAux p m s := by
  intro n
  induction n with
  | zero =>
    intro m s hn _
    have : s = [] := List.length_eq_zero.mp (Nat.le_zero.mp hn)
    subst this
    cases m <;> rfl
  | succ n ih =>
    intro m s hn hm
    cases s with
    | nil => cases m <;> rfl
    | cons c t =>
      cases m with
      | zero => simp at hm
      | succ m =>
        simp only [litMatchesAux]
        by_cases h : p ≠ [] ∧ p <+: (c :: t)
        · simp only [if_pos h]
          have hp : 1 ≤ p.length := by
            cases p with
            | nil => exact absurd rfl h.1
            | cons a b => simp
          have hd : ((c :: t).drop p.length).length ≤ n := by
            simp only [List.length_drop, List.length_cons]
            simp only [List.length_cons] at hn
            omega
          have hd' : ((c :: t).drop p.length).length ≤ m := by
            simp only [List.length_drop, List.length_cons]
            simp only [List.length_cons] at hm
            omega
          rw [ih m _ hd hd']
        · simp only [if_neg h]
          simp only [List.length_cons] at hn hm
          rw [ih m t (by omega) (by omega)]

lemma replaceLit_nil (p r : Str) : replaceLit p r [] = [] := rfl

lemma replaceLit_pos {p : Str} (r : Str) {c : Char} {t : Str}
    (h : p ≠ [] ∧ p <+: (c :: t)) :
    replaceLit p r (c :: t) = r ++ replaceLit p r ((c :: t).drop p.length) := by
  have hp : 1 ≤ p.length := by
    cases p with
    | nil => exact absurd rfl h.1
    | cons a b => simp
  simp only [replaceLit, List.length_cons, replaceLitAux, if_pos h]
  congr 1
  exact replaceLitAux_fuel p r t.length ((c :: t).drop p.length).length _
    (by simp [List.length_drop]; omega) (le_refl _)

lemma replaceLit_neg {p : Str} (r : Str) {c : Char} {t : Str}
    (h : ¬(p ≠ [] ∧ p <+: (c :: t))) :
    replaceLit p r (c :: t) = c :: replaceLit p r t := by
  simp only [replaceLit, List.length_cons, replaceLitAux, if_neg h]

lemma litMatches_nil (p : Str) : litMatches p [] = [] := rfl

lemma litMatches_pos {p : Str} {c : Char} {t : Str}
    (h : p ≠ [] ∧ p <+: (c :: t)) :
    litMatches p (c :: t) =
      (c :: t).take p.length :: litMatches p ((c :: t).drop p.length) := by
  have hp : 1 ≤ p.length := by
    cases p with
    | nil => exact absurd rfl h.1
    | cons a b => simp
  simp only [litMatches, List.length_cons, litMatchesAux, if_pos h]
  congr 1
  exact litMatchesAux_fuel p t.length ((c :: t).drop p.length).length _
    (by simp [List.length_drop]; omega) (le_refl _)

lemma litMatches_neg {p : Str} {c : Char} {t : Str}
    (h : ¬(p ≠ [] ∧ p <+: (c :: t))) :
    litMatches p (c :: t) = litMatches p t := by
  simp only [litMatches, List.length_cons, litMatchesAux, if_neg h]

/-! ## Occurrence lemmas for the literal engine

The rule sets of the repository have a distinguishing character: every
pattern and every replacement starts with `'f'` and contains `'f'` nowhere
else, and no pattern is a prefix of a replacement or vice versa.  These facts
make one full pass of `re.sub` eliminate every occurrence of every pattern
without creating new ones, which is the content of the idempotence claim.
-/

lemma replaceLit_id_of_not_occ {p : Str} (r : Str) :
    ∀ {s : Str}, ¬ p <:+: s → replaceLit p r s = s := by
  intro s
  induction s with
  | nil => intro _; rfl
  | cons c t ih =>
    intro h
    have hm : ¬(p ≠ [] ∧ p <+: (c :: t)) := by
      rintro ⟨_, hpre⟩
      exact h hpre.isInfix
    rw [replaceLit_neg r hm, ih]
    intro hinf
    exact h (hinf.trans (List.suffix_cons c t).isInfix)

lemma litMatches_eq_nil {p : Str} (hp : p ≠ []) :
    ∀ {s : Str}, litMatches p s = [] ↔ ¬ p <:+: s := by
  intro s
  induction s with
  | nil =>
    simp only [litMatches_nil, true_iff]
    rintro ⟨u, v, huv⟩
    have := congrArg List.length huv
    simp only [List.length_append, List.length_nil] at this
    have : p.length = 0 := by omega
    exact hp (List.length_eq_zero.mp this)
  | cons c t ih =>
    by_cases hm : p ≠ [] ∧ p <+: (c :: t)
    · rw [litMatches_pos hm]
      constructor
      · intro h
        exact absurd h (List.cons_ne_nil _ _)
      · intro h
        exact absurd hm.2.isInfix h
    · rw [litMatches_neg hm, ih]
      constructor
      · intro h hinf
        rcases hinf with ⟨u, v, huv⟩
        cases u with
        | nil =>
          exact hm ⟨hp, ⟨v, by simpa using huv⟩⟩
        | cons u0 u' =>
          have htail : u' ++ p ++ v = t := by
            have h2 : u0 :: (u' ++ p ++ v) = c :: t := by simpa using huv
            exact (List.cons_eq_cons.mp h2).2
          exact h ⟨u', v, htail⟩
      · intro h hinf
        exact h (hinf.trans (List.suffix_cons c t).isInfix)

/-- An infix of `a ++ b` lies in `a`, lies in `b`, or straddles the border:
a nonempty suffix of `a` followed by a nonempty prefix of `b`. -/
lemma infix_append_split {q a b : Str} (h : q <:+: a ++ b) :
    q <:+: a ∨ q <:+: b ∨
      ∃ q1 q2, q = q1 ++ q2 ∧ q1 ≠ [] ∧ q2 ≠ [] ∧ q1 <:+ a ∧ q2 <+: b := by
  rcases h with ⟨u, v, huv⟩
  -- huv : u ++ q ++ v = a ++ b
  rcases List.append_eq_append_iff.mp (by simpa [List.append_assoc] using huv) with
    ⟨a', ha, hb⟩ | ⟨c', hu, hb⟩
  · -- a = u ++ a', q ++ v = a' ++ b
    rcases List.append_eq_append_iff.mp hb with ⟨x, hx1, hx2⟩ | ⟨y, hy1, hy2⟩
    · -- a' = q ++ x : q sits inside a
      left
      exact ⟨u, x, by rw [ha, hx1, List.append_assoc]⟩
    · -- q = a' ++ y, b = y ++ v
      by_cases ha' : a' = []
      · right; left
        subst ha'
        simp only [List.nil_append] at hy1
        exact ⟨[], v, by simp [hy1, hy2]⟩
      · by_cases hy : y = []
        · left
          subst hy
          simp only [List.append_nil] at hy1
          exact ⟨u, [], by simp [ha, hy1]⟩
        · right; right
          exact ⟨a', y, hy1, ha', hy, ⟨u, ha.symm⟩, ⟨v, hy2.symm⟩⟩
  · -- u = a ++ c', b = c' ++ (q ++ v)
    right; left
    exact ⟨c', v, by rw [hb, List.append_assoc]⟩

/-- An infix of `c :: X` is a prefix of `c :: X` or an infix of `X`. -/
lemma infix_cons_split {q : Str} {c : Char} {X : Str} (h : q <:+: c :: X) :
    q <+: c :: X ∨ q <:+: X := by
  rcases h with ⟨u, v, huv⟩
  cases u with
  | nil => exact Or.inl ⟨v, by simpa using huv⟩
  | cons u0 u' =>
    right
    refine ⟨u', v, ?_⟩
    have := huv
    simp only [List.cons_append, List.append_assoc] at this ⊢
    exact (List.cons_eq_cons.mp this).2

/-- If `q` starts with `ch`, `r` starts with `ch` and has no other `ch`, and
neither of `q`, `r` is a prefix of the other, then `q` does not occur inside
`r` and cannot straddle the left border of an `r`-block: `q` occurring in
`r ++ X` must occur in `X`. -/
lemma not_infix_append {r q X : Str} {ch : Char}
    (hq : q.head? = some ch) (hrt : ch ∉ r.tail)
    (hqr : ¬ q <+: r) (hrq : ¬ r <+: q)
    (hX : ¬ q <:+: X) : ¬ q <:+: r ++ X := by
  obtain ⟨q', rfl⟩ : ∃ q', q = ch :: q' := by
    cases q with
    | nil => simp at hq
    | cons a b => exact ⟨b, by simpa using (by simpa using hq : a = ch) ▸ rfl⟩
  intro h
  rcases infix_append_split h with hin | hin | ⟨q1, q2, hsplit, h1ne, h2ne, h1suf, h2pre⟩
  · -- q inside r
    rcases hin with ⟨u, v, huv⟩
    cases u with
    | nil => exact hqr ⟨v, by simpa using huv⟩
    | cons u0 u' =>
      apply hrt
      have : r.tail = u' ++ (ch :: q') ++ v := by
        rw [← huv]; rfl
      rw [this]
      simp
  · exact hX hin
  · -- straddle: q1 nonempty suffix of r and prefix of q
    have hq1 : ∃ q1', q1 = ch :: q1' := by
      cases q1 with
      | nil => exact absurd rfl h1ne
      | cons a b =>
        refine ⟨b, ?_⟩
        have : a = ch := by
          have := hsplit
          simp only [List.cons_append] at this
          exact ((List.cons_eq_cons.mp this.symm).1)
        rw [this]
    obtain ⟨q1', rfl⟩ := hq1
    rcases h1suf with ⟨u, hu⟩
    cases u with
    | nil =>
      -- q1 = r, so r is a proper prefix of q
      apply hrq
      simp only [List.nil_append] at hu
      exact ⟨q2, by rw [← hu]; exact hsplit.symm⟩
    | cons u0 u' =>
      apply hrt
      have : r.tail = u' ++ (ch :: q1') := by rw [← hu]; rfl
      rw [this]
      simp

/-- Prefix transfer: a nonempty prefix of `replaceLit p r s` that avoids the
distinguished head character of `r` is a prefix of `s` itself. -/
lemma prefix_transfer {p r : Str} {ch : Char} (hr : r.head? = some ch) :
    ∀ {s w : Str}, ch ∉ w → w <+: replaceLit p r s → w <+: s := by
  intro s
  induction s with
  | nil =>
    intro w _ h
    simpa [replaceLit_nil] using h
  | cons c t ih =>
    intro w hw h
    by_cases hm : p ≠ [] ∧ p <+: (c :: t)
    · rw [replaceLit_pos r hm] at h
      cases w with
      | nil => exact List.nil_prefix
      | cons w0 w' =>
        exfalso
        apply hw
        obtain ⟨r', rfl⟩ : ∃ r', r = ch :: r' := by
          cases r with
          | nil => simp at hr
          | cons a b => exact ⟨b, by simpa using (by simpa using hr : a = ch) ▸ rfl⟩
        rcases h with ⟨v, hv⟩
        have hh : ch = w0 := by
          simpa using congrArg List.head? hv.symm
        simp [hh]
    · rw [replaceLit_neg r hm] at h
      cases w with
      | nil => exact List.nil_prefix
      | cons w0 w' =>
        rcases h with ⟨v, hv⟩
        rcases List.cons_eq_cons.mp hv with ⟨h0, hrest⟩
        have hw' : w' <+: replaceLit p r t := ⟨v, hrest⟩
        have : w' <+: t := ih (fun hmem => hw (List.mem_cons_of_mem _ hmem)) hw'
        rw [h0]
        rcases this with ⟨v', hv'⟩
        exact ⟨v', by rw [List.cons_append, hv']⟩

lemma not_infix_nil {p : Str} (hp : p ≠ []) : ¬ p <:+: ([] : Str) := by
  rintro ⟨u, v, huv⟩
  have := congrArg List.length huv
  simp only [List.length_append, List.length_nil] at this
  exact hp (List.length_eq_zero.mp (by omega))

/-- After `re.sub(p, r, s)` no occurrence of `p` remains, provided `p` and
`r` both start with the distinguished character `ch`, contain it nowhere
else, and neither is a prefix of the other. -/
lemma no_self_occurrence {p r : Str} {ch : Char}
    (hp : p.head? = some ch) (hpt : ch ∉ p.tail)
    (hr : r.head? = some ch) (hrt : ch ∉ r.tail)
    (hpr : ¬ p <+: r) (hrp : ¬ r <+: p) :
    ∀ (n : Nat) (s : Str), s.length ≤ n → ¬ p <:+: replaceLit p r s := by
  have hpne : p ≠ [] := by cases p <;> simp_all
  intro n
  induction n with
  | zero =>
    intro s hs
    have : s = [] := List.length_eq_zero.mp (Nat.le_zero.mp hs)
    subst this
    rw [replaceLit_nil]
    exact not_infix_nil hpne
  | succ n ih =>
    intro s hs
    cases s with
    | nil =>
      rw [replaceLit_nil]
      exact not_infix_nil hpne
    | cons c t =>
      simp only [List.length_cons] at hs
      by_cases hm : p ≠ [] ∧ p <+: (c :: t)
      · rw [replaceLit_pos r hm]
        have hplen : 1 ≤ p.length := by
          cases p with
          | nil => exact absurd rfl hpne
          | cons a b => simp
        apply not_infix_append hp hrt hpr hrp
        exact ih _ (by simp only [List.length_drop, List.length_cons]; omega)
      · rw [replaceLit_neg r hm]
        intro hinf
        rcases infix_cons_split hinf with hpre | hinf'
        · -- p would be a prefix of c :: t, contradicting the non-match
          obtain ⟨p', rfl⟩ : ∃ p', p = ch :: p' := by
            cases p with
            | nil => simp at hp
            | cons a b => exact ⟨b, by simpa using (by simpa using hp : a = ch) ▸ rfl⟩
          rcases hpre with ⟨v, hv⟩
          rcases List.cons_eq_cons.mp hv with ⟨h0, hrest⟩
          have hp' : p' <+: replaceLit (ch :: p') r t := ⟨v, hrest⟩
          have hp't : p' <+: t := prefix_transfer hr (by simpa using hpt) hp'
          apply hm
          refine ⟨hpne, ?_⟩
          rcases hp't with ⟨v', hv'⟩
          exact ⟨v', by rw [List.cons_append, hv', h0]⟩
        · exact ih t (by omega) hinf'

/-- `re.sub(p, r, ·)` creates no new occurrence of an unrelated pattern `q`
sharing the same distinguished-character discipline with `r`. -/
lemma no_new_occurrence {p r q : Str} {ch : Char}
    (hq : q.head? = some ch) (hqt : ch ∉ q.tail)
    (hr : r.head? = some ch) (hrt : ch ∉ r.tail)
    (hqr : ¬ q <+: r) (hrq : ¬ r <+: q) :
    ∀ (n : Nat) (s : Str), s.length ≤ n → ¬ q <:+: s → ¬ q <:+: replaceLit p r s := by
  have hqne : q ≠ [] := by cases q <;> simp_all
  intro n
  induction n with
  | zero =>
    intro s hs _
    have : s = [] := List.length_eq_zero.mp (Nat.le_zero.mp hs)
    subst this
    rw [replaceLit_nil]
    exact not_infix_nil hqne
  | succ n ih =>
    intro s hs hnocc
    cases s with
    | nil =>
      rw [replaceLit_nil]
      exact not_infix_nil hqne
    | cons c t =>
      simp only [List.length_cons] at hs
      have hnocc_t : ¬ q <:+: t := fun h => hnocc (h.trans (List.suffix_cons c t).isInfix)
      by_cases hm : p ≠ [] ∧ p <+: (c :: t)
      · rw [replaceLit_pos r hm]
        have hplen : 1 ≤ p.length := by
          cases p with
          | nil => exact absurd rfl hm.1
          | cons a b => simp
        apply not_infix_append hq hrt hqr hrq
        apply ih _ (by simp only [List.length_drop, List.length_cons]; omega)
        intro h
        exact hnocc (h.trans (List.drop_suffix _ _).isInfix)
      · rw [replaceLit_neg r hm]
        intro hinf
        rcases infix_cons_split hinf with hpre | hinf'
        · obtain ⟨q', rfl⟩ : ∃ q', q = ch :: q' := by
            cases q with
            | nil => simp at hq
            | cons a b => exact ⟨b, by simpa using (by simpa using hq : a = ch) ▸ rfl⟩
          rcases hpre with ⟨v, hv⟩
          rcases List.cons_eq_cons.mp hv with ⟨h0, hrest⟩
          have hq' : q' <+: replaceLit p r t := ⟨v, hrest⟩
          have hq't : q' <+: t := prefix_transfer hr (by simpa using hqt) hq'
          apply hnocc
          apply List.IsPrefix.isInfix
          rcases hq't with ⟨v', hv'⟩
          exact ⟨v', by rw [List.cons_append, hv', h0]⟩
        · exact ih t (by omega) hnocc_t hinf'

/-! ## The repository's rule tables

`PYTHON_REPLACEMENTS` from `migrate_to_isaac_4.5.py` lines 15–30.  Each
Python pattern is a fully regex-escaped literal, so it is represented by the
unescaped literal text it matches. -/

def PYTHON_REPLACEMENTS : List (Str × Str) :=
  [(("from omni.isaac.core.world import World").toList,
    ("from isaacsim.core.api.world import World").toList),
   (("from omni.isaac.core import World").toList,
    ("from isaacsim.core.api import World").toList),
   (("from omni.isaac.core.objects import").toList,
    ("from isaacsim.core.api.objects import").toList),
   (("from omni.isaac.dynamic_control import").toList,
    ("from isaacsim.core.dynamic_control import").toList),
   (("from omni.isaac.sensor import Camera").toList,
    ("from isaacsim.sensors.camera import Camera").toList)]

/-- Sequential application of an ordered literal rule list (the loop body of
`migrate_python_file`: each rule is matched against, and substituted in, the
current content). -/
def applyAllLit (rules : List (Str × Str)) (c : Str) : Str :=
  rules.foldl (fun acc pr => replaceLit pr.1 pr.2 acc) c

/-- The discipline satisfied by the repository's Python rule table: every
pattern and replacement starts with `ch` and contains it nowhere else, and no
pattern is a prefix of a replacement or vice versa. -/
def GoodRules (ch : Char) (rules : List (Str × Str)) : Prop :=
  (∀ pr ∈ rules,
      pr.1.head? = some ch ∧ ch ∉ pr.1.tail ∧ pr.2.head? = some ch ∧ ch ∉ pr.2.tail) ∧
  (∀ pr ∈ rules, ∀ qr ∈ rules, ¬ pr.1 <+: qr.2 ∧ ¬ qr.2 <+: pr.1)

lemma pyRules_good : GoodRules 'f' PYTHON_REPLACEMENTS := by
  unfold GoodRules
  decide

lemma goodRules_tail {ch : Char} {pr : Str × Str} {rest : List (Str × Str)}
    (h : GoodRules ch (pr :: rest)) : GoodRules ch rest := by
  constructor
  · intro qr hqr
    exact h.1 qr (List.mem_cons_of_mem _ hqr)
  · intro qr hqr sr hsr
    exact h.2 qr (List.mem_cons_of_mem _ hqr) sr (List.mem_cons_of_mem _ hsr)

lemma applyAllLit_preserves {ch : Char} {q : Str}
    (hq : q.head? = some ch) (hqt : ch ∉ q.tail) :
    ∀ (rules : List (Str × Str)) (c : Str),
      (∀ qr ∈ rules,
          qr.2.head? = some ch ∧ ch ∉ qr.2.tail ∧ ¬ q <+: qr.2 ∧ ¬ qr.2 <+: q) →
      ¬ q <:+: c → ¬ q <:+: applyAllLit rules c := by
  intro rules
  induction rules with
  | nil => intro c _ h; exact h
  | cons pr rest ih =>
    intro c hconds h
    have hc := hconds pr (List.mem_cons_self _ _)
    have step : ¬ q <:+: replaceLit pr.1 pr.2 c :=
      no_new_occurrence hq hqt hc.1 hc.2.1 hc.2.2.1 hc.2.2.2 c.length c le_rfl h
    exact ih _ (fun qr hqr => hconds qr (List.mem_cons_of_mem _ hqr)) step

/-- After one full pass of a well-disciplined rule list, no pattern of the
list occurs in the result. -/
lemma applyAllLit_no_occ {ch : Char} :
    ∀ (rules : List (Str × Str)), GoodRules ch rules →
      ∀ (c : Str), ∀ pr ∈ rules, ¬ pr.1 <:+: applyAllLit rules c := by
  intro rules
  induction rules with
  | nil => intro _ c pr hpr; cases hpr
  | cons hd rest ih =>
    intro hgood c pr hpr
    have hhd := hgood.1 hd (List.mem_cons_self _ _)
    rcases List.mem_cons.mp hpr with rfl | hmem
    · -- the head pattern: eliminated by its own pass, preserved by the rest
      have hself := hgood.2 pr (List.mem_cons_self _ _) pr (List.mem_cons_self _ _)
      have step : ¬ pr.1 <:+: replaceLit pr.1 pr.2 c :=
        no_self_occurrence hhd.1 hhd.2.1 hhd.2.2.1 hhd.2.2.2 hself.1 hself.2
          c.length c le_rfl
      exact applyAllLit_preserves hhd.1 hhd.2.1 rest _
        (fun qr hqr => by
          have h1 := hgood.1 qr (List.mem_cons_of_mem _ hqr)
          have h2 := hgood.2 pr (List.mem_cons_self _ _) qr (List.mem_cons_of_mem _ hqr)
          exact ⟨h1.2.2.1, h1.2.2.2, h2.1, h2.2⟩)
        step
    · exact ih (goodRules_tail hgood) _ pr hmem

lemma applyAllLit_id :
    ∀ (rules : List (Str × Str)) (c : Str),
      (∀ pr ∈ rules, ¬ pr.1 <:+: c) → applyAllLit rules c = c := by
  intro rules
  induction rules with
  | nil => intro c _; rfl
  | cons hd rest ih =>
    intro c h
    show applyAllLit rest (replaceLit hd.1 hd.2 c) = c
    rw [replaceLit_id_of_not_occ hd.2 (h hd (List.mem_cons_self _ _))]
    exact ih c (fun pr hpr => h pr (List.mem_cons_of_mem _ hpr))

/-- One pass of `PYTHON_REPLACEMENTS` removes all pattern occurrences. -/
lemma pyApply_no_occ (c : Str) :
    ∀ pr ∈ PYTHON_REPLACEMENTS, ¬ pr.1 <:+: applyAllLit PYTHON_REPLACEMENTS c :=
  applyAllLit_no_occ PYTHON_REPLACEMENTS pyRules_good c

/-- Applying the Python rule list twice equals applying it once. -/
lemma pyApply_idem (c : Str) :
    applyAllLit PYTHON_REPLACEMENTS (applyAllLit PYTHON_REPLACEMENTS c) =
      applyAllLit PYTHON_REPLACEMENTS c :=
  applyAllLit_id _ _ (pyApply_no_occ c)

/-! ## The TOML rule engine

`TOML_REPLACEMENTS` (line 33–35) holds the one genuine regex of the
repository: `"omni\.isaac\.core"\s*=\s*\{\}`.  Its matches are the literal
`"omni.isaac.core"`, a maximal whitespace run, `=`, a maximal whitespace run,
and `{}` — greedy `\s*` followed by the non-whitespace `=` (resp. `{`) never
backtracks, so the matcher is deterministic. -/

/-- Python's `\s` on ASCII text. -/
def isWs (c : Char) : Bool :=
  c = ' ' || c = '\t' || c = '\n' || c = '\r' || c = '\x0b' || c = '\x0c'

/-- Consume a maximal whitespace run; returns its length and the rest. -/
def skipWs : Str → Nat × Str
  | [] => (0, [])
  | c :: t => if isWs c then ((skipWs t).1 + 1, (skipWs t).2) else (0, c :: t)

def braceL : Char := Char.ofNat 123

def braceR : Char := Char.ofNat 125

/-- The literal part of the TOML pattern. -/
def tomlLit : Str := ("\"omni.isaac.core\"").toList

/-- The TOML replacement text. -/
def tomlRepl : Str := ("\"isaacsim.core.api\" = \x7b\x7d").toList

/-- The TOML pattern's *source text* (what `old_pattern` holds, backslashes
included) — this is what `migrate_toml_file` records in its change log. -/
def tomlSrc : Str := ("\"omni\\.isaac\\.core\"\\s*=\\s*\\\x7b\\\x7d").toList

/-- Leftmost match of the TOML regex at the head of `s`: its length. -/
def matchToml (s : Str) : Option Nat :=
  if tomlLit <+: s then
    match (skipWs (s.drop tomlLit.length)).2 with
    | c :: s3 =>
      if c = '=' ∧ [braceL, braceR] <+: (skipWs s3).2 then
        some (tomlLit.length + (skipWs (s.drop tomlLit.length)).1 + 1 + (skipWs s3).1 + 2)
      else none
    | [] => none
  else none

def replaceTomlAux : Nat → Str → Str
  | _, [] => []
  | 0, s => s
  | fuel + 1, c :: t =>
    match matchToml (c :: t) with
    | some n => tomlRepl ++ replaceTomlAux fuel ((c :: t).drop n)
    | none => c :: replaceTomlAux fuel t

/-- `re.sub` for the TOML rule. -/
def replaceToml (s : Str) : Str := replaceTomlAux s.length s

def tomlMatchesAux : Nat → Str → List Str
  | _, [] => []
  | 0, _ => []
  | fuel + 1, c :: t =>
    match matchToml (c :: t) with
    | some n => (c :: t).take n :: tomlMatchesAux fuel ((c :: t).drop n)
    | none => tomlMatchesAux fuel t

/-- `re.findall` for the TOML rule: matched substrings, leftmost first. -/
def tomlMatches (s : Str) : List Str := tomlMatchesAux s.length s

lemma matchToml_ge {s : Str} {n : Nat} (h : matchToml s = some n) : 17 ≤ n := by
  unfold matchToml at h
  split at h
  · split at h
    · split at h
      · have h17 : tomlLit.length = 17 := by decide
        rw [h17, Option.some.injEq] at h
        omega
      · exact absurd h (by simp)
    · exact absurd h (by simp)
  · exact absurd h (by simp)

lemma matchToml_lit {s : Str} {n : Nat} (h : matchToml s = some n) : tomlLit <+: s := by
  unfold matchToml at h
  split at h
  · assumption
  · exact absurd h (by simp)

lemma replaceTomlAux_fuel :
    ∀ (n m : Nat) (s : Str), s.length ≤ n → s.length ≤ m →
      replaceTomlAux n s = replaceTomlAux m s := by
  intro n
  induction n with
  | zero =>
    intro m s hn _
    have : s = [] := List.length_eq_zero.mp (Nat.le_zero.mp hn)
    subst this
    cases m <;> rfl
  | succ n ih =>
    intro m s hn hm
    cases s with
    | nil => cases m <;> rfl
    | cons c t =>
      cases m with
      | zero => simp at hm
      | succ m =>
        have hn' : t.length + 1 ≤ n + 1 := by simpa using hn
        have hm' : t.length + 1 ≤ m + 1 := by simpa using hm
        rcases he : matchToml (c :: t) with _ | k
        · simp only [replaceTomlAux, he]
          rw [ih m t (by omega) (by omega)]
        · have hk := matchToml_ge he
          simp only [replaceTomlAux, he]
          rw [ih m _ (by simp only [List.length_drop, List.length_cons]; omega)
            (by simp only [List.length_drop, List.length_cons]; omega)]

lemma tomlMatchesAux_fuel :
    ∀ (n m : Nat) (s : Str), s.length ≤ n → s.length ≤ m →
      tomlMatchesAux n s = tomlMatchesAux m s := by
  intro n
  induction n with
  | zero =>
    intro m s hn _
    have : s = [] := List.length_eq_zero.mp (Nat.le_zero.mp hn)
    subst this
    cases m <;> rfl
  | succ n ih =>
    intro m s hn hm
    cases s with
    | nil => cases m <;> rfl
    | cons c t =>
      cases m with
      | zero => simp at hm
      | succ m =>
        have hn' : t.length + 1 ≤ n + 1 := by simpa using hn
        have hm' : t.length + 1 ≤ m + 1 := by simpa using hm
        rcases he : matchToml (c :: t) with _ | k
        · simp only [tomlMatchesAux, he]
          rw [ih m t (by omega) (by omega)]
        · have hk := matchToml_ge he
          simp only [tomlMatchesAux, he]
          rw [ih m _ (by simp only [List.length_drop, List.length_cons]; omega)
            (by simp only [List.length_drop, List.length_cons]; omega)]

lemma replaceToml_nil : replaceToml [] = [] := rfl

lemma replaceToml_pos {c : Char} {t : Str} {n : Nat} (h : matchToml (c :: t) = some n) :
    replaceToml (c :: t) = tomlRepl ++ replaceToml ((c :: t).drop n) := by
  have hn := matchToml_ge h
  simp only [replaceToml, List.length_cons, replaceTomlAux, h]
  congr 1
  exact replaceTomlAux_fuel t.length ((c :: t).drop n).length _
    (by simp only [List.length_drop, List.length_cons]; omega) (le_refl _)

lemma replaceToml_neg {c : Char} {t : Str} (h : matchToml (c :: t) = none) :
    replaceToml (c :: t) = c :: replaceToml t := by
  simp only [replaceToml, List.length_cons, replaceTomlAux, h]

lemma tomlMatches_nil : tomlMatches [] = [] := rfl

lemma tomlMatches_pos {c : Char} {t : Str} {n : Nat} (h : matchToml (c :: t) = some n) :
    tomlMatches (c :: t) = (c :: t).take n :: tomlMatches ((c :: t).drop n) := by
  have hn := matchToml_ge h
  simp only [tomlMatches, List.length_cons, tomlMatchesAux, h]
  congr 1
  exact tomlMatchesAux_fuel t.length ((c :: t).drop n).length _
    (by simp only [List.length_drop, List.length_cons]; omega) (le_refl _)

lemma tomlMatches_neg {c : Char} {t : Str} (h : matchToml (c :: t) = none) :
    tomlMatches (c :: t) = tomlMatches t := by
  simp only [tomlMatches, List.length_cons, tomlMatchesAux, h]

/-! ### Structure of a TOML match -/

lemma skipWs_spec : ∀ s : Str,
    ∃ w, s = w ++ (skipWs s).2 ∧ (∀ c ∈ w, isWs c = true) ∧ w.length = (skipWs s).1 := by
  intro s
  induction s with
  | nil => exact ⟨[], by simp [skipWs]⟩
  | cons c t ih =>
    by_cases hc : isWs c = true
    · rcases ih with ⟨w, hw1, hw2, hw3⟩
      refine ⟨c :: w, ?_, ?_, ?_⟩
      · simp only [skipWs, if_pos hc, List.cons_append]
        exact congrArg (c :: ·) hw1
      · intro x hx
        rcases List.mem_cons.mp hx with rfl | hx
        · exact hc
        · exact hw2 x hx
      · simp only [skipWs, if_pos hc, List.length_cons, hw3]
    · refine ⟨[], ?_, by simp, ?_⟩
      · simp only [skipWs, if_neg hc, List.nil_append]
      · simp only [skipWs, if_neg hc, List.length_nil]

lemma skipWs_ws_append {w : Str} (hw : ∀ c ∈ w, isWs c = true) :
    ∀ {x : Char} {rest : Str}, isWs x = false →
      skipWs (w ++ x :: rest) = (w.length, x :: rest) := by
  induction w with
  | nil =>
    intro x rest hx
    simp only [List.nil_append, skipWs, hx, List.length_nil]
    rfl
  | cons c t ih =>
    intro x rest hx
    have hc : isWs c = true := hw c (List.mem_cons_self _ _)
    have ht : ∀ c ∈ t, isWs c = true := fun c hc => hw c (List.mem_cons_of_mem _ hc)
    simp only [List.cons_append, skipWs, if_pos hc, List.append_eq]
    rw [ih ht hx]
    simp

/-- Decomposition of a successful TOML match. -/
lemma matchToml_some_struct {s : Str} {n : Nat} (h : matchToml s = some n) :
    ∃ w1 w2 rest,
      s = tomlLit ++ w1 ++ '=' :: (w2 ++ braceL :: braceR :: rest) ∧
      (∀ c ∈ w1, isWs c = true) ∧ (∀ c ∈ w2, isWs c = true) ∧
      n = tomlLit.length + w1.length + 1 + w2.length + 2 := by
  have hlit : tomlLit <+: s := matchToml_lit h
  unfold matchToml at h
  rw [if_pos hlit] at h
  rcases he : (skipWs (s.drop tomlLit.length)).2 with _ | ⟨c, s3⟩
  · rw [he] at h; exact absurd h (by simp)
  · rw [he] at h
    dsimp only at h
    by_cases hcond : c = '=' ∧ [braceL, braceR] <+: (skipWs s3).2
    · rw [if_pos hcond, Option.some.injEq] at h
      obtain ⟨rfl, hbr⟩ := hcond
      rcases skipWs_spec (s.drop tomlLit.length) with ⟨w1, hw1eq, hw1ws, hw1len⟩
      rcases skipWs_spec s3 with ⟨w2, hw2eq, hw2ws, hw2len⟩
      rcases hbr with ⟨rest, hrest⟩
      rcases hlit with ⟨s', hs'⟩
      refine ⟨w1, w2, rest, ?_, hw1ws, hw2ws, ?_⟩
      · have hdrop : s.drop tomlLit.length = s' := by
          rw [← hs']
          exact List.drop_left _ _
        rw [hdrop] at hw1eq he
        have hs3 : s3 = w2 ++ braceL :: braceR :: rest := by
          rw [hw2eq, ← hrest]
          rfl
        rw [← hs', hw1eq, he, hs3]
        simp [List.append_assoc]
      · omega
    · rw [if_neg hcond] at h
      exact absurd h (by simp)

/-- Conversely, text of the match shape does match, with the expected length. -/
lemma matchToml_of_struct {w1 w2 rest : Str}
    (h1 : ∀ c ∈ w1, isWs c = true) (h2 : ∀ c ∈ w2, isWs c = true) :
    matchToml (tomlLit ++ w1 ++ '=' :: (w2 ++ braceL :: braceR :: rest)) =
      some (tomlLit.length + w1.length + 1 + w2.length + 2) := by
  have hEq : isWs '=' = false := by decide
  have hBl : isWs braceL = false := by decide
  have hpre : tomlLit <+: tomlLit ++ w1 ++ '=' :: (w2 ++ braceL :: braceR :: rest) := by
    rw [List.append_assoc]
    exact List.prefix_append _ _
  unfold matchToml
  rw [if_pos hpre]
  have hdrop : (tomlLit ++ w1 ++ '=' :: (w2 ++ braceL :: braceR :: rest)).drop tomlLit.length
      = w1 ++ '=' :: (w2 ++ braceL :: braceR :: rest) := by
    rw [List.append_assoc]
    exact List.drop_left _ _
  rw [hdrop, skipWs_ws_append h1 hEq]
  dsimp only
  have hbr : [braceL, braceR] <+: braceL :: braceR :: rest := ⟨rest, rfl⟩
  rw [skipWs_ws_append h2 hBl]
  rw [if_pos ⟨rfl, hbr⟩]

/-! ### No match survives a full TOML pass

Key discipline of the TOML rule: every match starts with `'"'` followed by
`'o'`, while `tomlRepl` follows each of its two quotes by `'i'` or a space,
never by `'i'` at a border compatible with the pattern.  The invariant
`QuoteOK` (every `'"'` is followed by a non-`'i'` character) holds for every
match string, is closed under tails, and is incompatible with a prefix of a
`tomlRepl` block. -/

def qrel (a b : Char) : Prop := a = '"' → b ≠ 'i'

def QuoteOK (w : Str) : Prop := List.Chain' qrel w ∧ w.getLast? ≠ some '"'

lemma quoteOK_tail {c : Char} {w : Str} (h : QuoteOK (c :: w)) : QuoteOK w := by
  refine ⟨h.1.tail, ?_⟩
  cases w with
  | nil => simp
  | cons d w' =>
    have := h.2
    rwa [List.getLast?_cons_cons] at this

lemma chain'_of_no_quote {l : Str} (h : ∀ x ∈ l, x ≠ '"') : List.Chain' qrel l := by
  induction l with
  | nil => exact List.chain'_nil
  | cons c t ih =>
    cases t with
    | nil => exact List.chain'_singleton c
    | cons d t' =>
      rw [List.chain'_cons]
      constructor
      · intro hq
        exact absurd hq (h c (List.mem_cons_self _ _))
      · exact ih (fun x hx => h x (List.mem_cons_of_mem _ hx))

lemma isWs_ne_quote {c : Char} (h : isWs c = true) : c ≠ '"' := by
  simp only [isWs, Bool.or_eq_true, decide_eq_true_eq] at h
  rcases h with ((((h | h) | h) | h) | h) | h <;> subst h <;> decide

lemma isWs_ne_i {c : Char} (h : isWs c = true) : c ≠ 'i' := by
  simp only [isWs, Bool.or_eq_true, decide_eq_true_eq] at h
  rcases h with ((((h | h) | h) | h) | h) | h <;> subst h <;> decide

instance qrel.decidable (a b : Char) : Decidable (qrel a b) :=
  inferInstanceAs (Decidable (a = '"' → b ≠ 'i'))

/-- Executable check for `List.Chain' qrel` on concrete strings. -/
def chainQOK : Str → Bool
  | [] => true
  | [_] => true
  | a :: b :: t => decide (qrel a b) && chainQOK (b :: t)

lemma chainQOK_iff : ∀ {l : Str}, chainQOK l = true ↔ List.Chain' qrel l := by
  intro l
  induction l with
  | nil => simp [chainQOK]
  | cons a t ih =>
    cases t with
    | nil => simp [chainQOK]
    | cons b t' =>
      rw [List.chain'_cons]
      simp only [chainQOK, Bool.and_eq_true, decide_eq_true_eq]
      rw [ih]

/-- The retained part of a match string (everything up to and including the
braces) satisfies `QuoteOK`. -/
lemma matchPrefix_quoteOK {w1 w2 : Str}
    (h1 : ∀ c ∈ w1, isWs c = true) (h2 : ∀ c ∈ w2, isWs c = true) :
    QuoteOK (tomlLit ++ w1 ++ '=' :: (w2 ++ [braceL, braceR])) := by
  constructor
  · rw [List.append_assoc]
    rw [List.chain'_append]
    refine ⟨chainQOK_iff.mp (by decide), ?_, ?_⟩
    · rw [List.chain'_append]
      refine ⟨chain'_of_no_quote (fun x hx => isWs_ne_quote (h1 x hx)), ?_, ?_⟩
      · rw [List.chain'_cons']
        refine ⟨?_, ?_⟩
        · intro y hy hq
          exact absurd hq (by decide)
        · rw [List.chain'_append]
          refine ⟨chain'_of_no_quote (fun x hx => isWs_ne_quote (h2 x hx)),
            chainQOK_iff.mp (by decide), ?_⟩
          · intro x hx y hy
            intro hq
            exact absurd hq (isWs_ne_quote (h2 x (by
              cases w2 with
              | nil => simp at hx
              | cons a b => exact List.mem_of_mem_getLast? hx)))
      · intro x hx y hy
        intro hq
        exact absurd hq (isWs_ne_quote (h1 x (by
          cases w1 with
          | nil => simp at hx
          | cons a b => exact List.mem_of_mem_getLast? hx)))
    · intro x hx y hy hq
      -- x is the closing quote of tomlLit; y is a whitespace char or '='
      cases w1 with
      | nil =>
        simp only [List.nil_append, List.head?_cons, Option.mem_def,
          Option.some.injEq] at hy
        subst hy
        decide
      | cons a w1' =>
        simp only [List.cons_append, List.head?_cons, Option.mem_def,
          Option.some.injEq] at hy
        rw [← hy]
        exact isWs_ne_i (h1 a (List.mem_cons_self _ _))
  · have : tomlLit ++ w1 ++ '=' :: (w2 ++ [braceL, braceR]) =
        (tomlLit ++ w1 ++ '=' :: (w2 ++ [braceL])) ++ [braceR] := by
      simp [List.append_assoc]
    rw [this, List.getLast?_concat]
    decide

/-- A suffix of `a ++ b` is a suffix of `b` or a tail of `a` glued to `b`. -/
lemma suffix_append_split {t a b : Str} (h : t <:+ a ++ b) :
    t <:+ b ∨ ∃ k, k < a.length ∧ t = a.drop k ++ b := by
  rcases h with ⟨u, hu⟩
  by_cases hlen : a.length ≤ u.length
  · left
    have hua : a <+: u := by
      have h1 : a <+: a ++ b := List.prefix_append _ _
      have h2 : u <+: a ++ b := ⟨t, hu⟩
      exact List.prefix_of_prefix_length_le h1 h2 hlen
    rcases hua with ⟨u', rfl⟩
    refine ⟨u', ?_⟩
    have := hu
    rw [List.append_assoc] at this
    exact (List.append_cancel_left this)
  · right
    push_neg at hlen
    have hua : u <+: a := by
      have h1 : u <+: a ++ b := ⟨t, hu⟩
      have h2 : a <+: a ++ b := List.prefix_append _ _
      exact List.prefix_of_prefix_length_le h1 h2 (le_of_lt hlen)
    rcases hua with ⟨a', ha'⟩
    refine ⟨u.length, hlen, ?_⟩
    have hdrop : a.drop u.length = a' := by
      rw [← ha']
      exact List.drop_left _ _
    rw [hdrop]
    have := hu
    rw [← ha', List.append_assoc] at this
    exact List.append_cancel_left this

/-- Decidable border facts: no tail of `tomlRepl` begins the TOML literal,
and no tail of `tomlRepl` is an initial segment of it. -/
lemma tomlRepl_border : ∀ k, k < tomlRepl.length →
    ¬ tomlLit <+: tomlRepl.drop k ∧ ¬ tomlRepl.drop k <+: tomlLit := by
  decide

/-- Prefix transfer for the TOML engine: a `QuoteOK` prefix of
`replaceToml u` is a prefix of `u`. -/
lemma prefix_transfer_toml :
    ∀ (n : Nat) (u w : Str), u.length ≤ n → QuoteOK w →
      w <+: replaceToml u → w <+: u := by
  intro n
  induction n with
  | zero =>
    intro u w hu _ h
    have : u = [] := List.length_eq_zero.mp (Nat.le_zero.mp hu)
    subst this
    simpa [replaceToml_nil] using h
  | succ n ih =>
    intro u w hu hok h
    cases u with
    | nil => simpa [replaceToml_nil] using h
    | cons c t =>
      have hu' : t.length + 1 ≤ n + 1 := by simpa using hu
      rcases he : matchToml (c :: t) with _ | k
      · rw [replaceToml_neg he] at h
        cases w with
        | nil => exact List.nil_prefix
        | cons w0 w' =>
          rcases h with ⟨v, hv⟩
          rcases List.cons_eq_cons.mp hv with ⟨h0, hrest⟩
          have : w' <+: t := ih t w' (by omega) (quoteOK_tail hok) ⟨v, hrest⟩
          rcases this with ⟨v', hv'⟩
          exact ⟨v', by rw [List.cons_append, hv', h0]⟩
      · rw [replaceToml_pos he] at h
        cases w with
        | nil => exact List.nil_prefix
        | cons w0 w' =>
          exfalso
          obtain ⟨tr, htr⟩ : ∃ tr, tomlRepl = '"' :: 'i' :: tr :=
            ⟨tomlRepl.drop 2, by decide⟩
          rcases h with ⟨v, hv⟩
          rw [htr] at hv
          simp only [List.cons_append] at hv
          rcases List.cons_eq_cons.mp hv with ⟨hq, hv2⟩
          cases w' with
          | nil =>
            -- w = ['"'] contradicts getLast? ≠ some '"'
            apply hok.2
            rw [hq]
            rfl
          | cons w1 w'' =>
            simp only [List.cons_append] at hv2
            rcases List.cons_eq_cons.mp hv2 with ⟨hi, _⟩
            have := (List.chain'_cons.mp hok.1).1
            exact this hq hi

lemma matchToml_none_nil : matchToml [] = none := by decide

/-- After one pass of the TOML rule, no suffix of the result matches. -/
lemma replaceToml_no_match :
    ∀ (n : Nat) (s : Str), s.length ≤ n →
      ∀ t, t <:+ replaceToml s → matchToml t = none := by
  intro n
  induction n with
  | zero =>
    intro s hs t ht
    have : s = [] := List.length_eq_zero.mp (Nat.le_zero.mp hs)
    subst this
    rw [replaceToml_nil] at ht
    rw [List.suffix_nil.mp ht]
    exact matchToml_none_nil
  | succ n ih =>
    intro s hs t ht
    cases s with
    | nil =>
      rw [replaceToml_nil] at ht
      rw [List.suffix_nil.mp ht]
      exact matchToml_none_nil
    | cons c t0 =>
      have hs' : t0.length + 1 ≤ n + 1 := by simpa using hs
      rcases he : matchToml (c :: t0) with _ | k
      · rw [replaceToml_neg he] at ht
        rcases List.suffix_cons_iff.mp ht with heq | hsuf
        · by_contra hne
          obtain ⟨m, hm⟩ := Option.ne_none_iff_exists'.mp hne
          obtain ⟨w1, w2, rest, hstruct, hw1, hw2, hmlen⟩ := matchToml_some_struct hm
          have hπpre : tomlLit ++ w1 ++ '=' :: (w2 ++ [braceL, braceR]) <+: t :=
            ⟨rest, by rw [hstruct]; simp [List.append_assoc]⟩
          have hrt : replaceToml (c :: t0) = t := by
            rw [replaceToml_neg he]
            exact heq.symm
          have hquote := matchPrefix_quoteOK hw1 hw2
          have hπs : tomlLit ++ w1 ++ '=' :: (w2 ++ [braceL, braceR]) <+: c :: t0 :=
            prefix_transfer_toml (c :: t0).length (c :: t0) _ le_rfl hquote
              (by rw [hrt]; exact hπpre)
          rcases hπs with ⟨rest2, hrest2⟩
          have hshape : (tomlLit ++ w1 ++ '=' :: (w2 ++ [braceL, braceR])) ++ rest2 =
              tomlLit ++ w1 ++ '=' :: (w2 ++ braceL :: braceR :: rest2) := by
            simp [List.append_assoc]
          have hmatch : matchToml (c :: t0) =
              some (tomlLit.length + w1.length + 1 + w2.length + 2) := by
            rw [← hrest2, hshape]
            exact matchToml_of_struct hw1 hw2
          rw [he] at hmatch
          simp at hmatch
        · exact ih t0 (by omega) t hsuf
      · rw [replaceToml_pos he] at ht
        have hk := matchToml_ge he
        rcases suffix_append_split ht with hsuf | ⟨j, hj, rfl⟩
        · refine ih _ ?_ t hsuf
          simp only [List.length_drop, List.length_cons]
          omega
        · by_contra hne
          obtain ⟨m, hm⟩ := Option.ne_none_iff_exists'.mp hne
          have hlit : tomlLit <+: tomlRepl.drop j ++ replaceToml ((c :: t0).drop k) :=
            matchToml_lit hm
          have hborder := tomlRepl_border j hj
          by_cases hlen : tomlLit.length ≤ (tomlRepl.drop j).length
          · apply hborder.1
            exact List.prefix_of_prefix_length_le hlit (List.prefix_append _ _) hlen
          · apply hborder.2
            push_neg at hlen
            exact List.prefix_of_prefix_length_le (List.prefix_append _ _) hlit
              (le_of_lt hlen)

/-- A string without any TOML match is left unchanged by `replaceToml`. -/
lemma replaceToml_id_of_no_match :
    ∀ {s : Str}, (∀ t, t <:+ s → matchToml t = none) → replaceToml s = s := by
  intro s
  induction s with
  | nil => intro _; rfl
  | cons c t ih =>
    intro h
    have hc : matchToml (c :: t) = none := h _ (List.suffix_refl _)
    rw [replaceToml_neg hc, ih]
    intro u hu
    exact h u (hu.trans (List.suffix_cons c t))

/-- Applying the TOML rule twice equals applying it once. -/
lemma tomlApply_idem (c : Str) : replaceToml (replaceToml c) = replaceToml c :=
  replaceToml_id_of_no_match
    (fun t ht => replaceToml_no_match c.length c le_rfl t ht)

/-! ## Filesystem and `MigrationTool` model

The filesystem is a total map from paths to entries.  `unreadable` models an
existing file whose `open`/`read` raises (permissions, decode failure);
`absent` a path for which `exists()` is false (and `open` raises).  Python
mutation is modelled by explicit state passing. -/

abbrev Path := Str

inductive FileEntry where
  | absent
  | file (content : Str)
  | unreadable
deriving DecidableEq

abbrev FS := Path → FileEntry

def update (fs : FS) (p : Path) (e : FileEntry) : FS :=
  fun q => if q = p then e else fs q

def FileEntry.existsOnDisk : FileEntry → Bool
  | .absent => false
  | .file _ => true
  | .unreadable => true

/-- `filepath.with_suffix(filepath.suffix + '.bak')`: for the configured
targets (which all carry a nonempty final suffix such as `.py` or `.toml`)
this appends `.bak` to the path. -/
def bakPath (p : Path) : Path := p ++ (".bak").toList

/-- `filepath.with_suffix('.py.ardupilot_backup')` on the `.py` targets of
the fix script: appends `.ardupilot_backup`. -/
def ardBakPath (p : Path) : Path := p ++ (".ardupilot_backup").toList

/-- The mutable state of a `MigrationTool` instance. -/
structure ToolState where
  dry_run : Bool
  no_backup : Bool
  changes_made : List Path
  warnings : List Path
deriving DecidableEq

/-- `MigrationTool.backup_file` (lines 92–100). -/
def backup_file (st : ToolState) (fs : FS) (filepath : Path) : FS :=
  if st.no_backup || st.dry_run then fs
  else if (fs (bakPath filepath)).existsOnDisk then fs
  else update fs (bakPath filepath) (fs filepath)

/-- Python `str.lower` on ASCII content. -/
def lowerStr (s : Str) : Str := s.map Char.toLower

/-- The ArduPilot attention check of `migrate_python_file` (line 125):
`'ardupilot' in content.lower() or 'ArduPilot' in content`. -/
def ardupilotFlag (content : Str) : Bool :=
  decide (("ardupilot").toList <:+: lowerStr content) ||
  decide (("ArduPilot").toList <:+: content)

/-- The rule loop of `migrate_python_file` (lines 118–122): per rule,
`re.findall`; if nonempty, `re.sub` on the current content and a change
record pairing `matches[0]` with the replacement. -/
def applyRulesPy (c : Str) : Str × List (Str × Str) :=
  PYTHON_REPLACEMENTS.foldl
    (fun acc pr =>
      match litMatches pr.1 acc.1 with
      | [] => acc
      | m :: _ => (replaceLit pr.1 pr.2 acc.1, acc.2 ++ [(m, pr.2)]))
    (c, [])

/-- The rule loop of `migrate_toml_file` (lines 158–162): the single TOML
rule; the change record pairs the *pattern source text* (`old_pattern`,
backslashes and all) with the replacement. -/
def applyRulesToml (c : Str) : Str × List (Str × Str) :=
  match tomlMatches c with
  | [] => (c, [])
  | _ :: _ => (replaceToml c, [(tomlSrc, tomlRepl)])

/-- `MigrationTool.migrate_python_file` (lines 102–140).  Read; on failure
return (caught).  Apply the rules; run the ArduPilot check on the
post-replacement content; if the content changed, back up and write (live
mode only) and append to `changes_made`. -/
def migrate_python_file (st : ToolState) (fs : FS) (filepath : Path) :
    ToolState × FS :=
  match fs filepath with
  | .absent => (st, fs)
  | .unreadable => (st, fs)
  | .file content0 =>
    let content := (applyRulesPy content0).1
    let st1 := if ardupilotFlag content then
        { st with warnings := st.warnings ++ [filepath] } else st
    if content ≠ content0 then
      if st1.dry_run then
        ({ st1 with changes_made := st1.changes_made ++ [filepath] }, fs)
      else
        ({ st1 with changes_made := st1.changes_made ++ [filepath] },
          update (backup_file st1 fs filepath) filepath (.file content))
    else (st1, fs)

/-- `MigrationTool.migrate_toml_file` (lines 142–176): same shape, no
ArduPilot check. -/
def migrate_toml_file (st : ToolState) (fs : FS) (filepath : Path) :
    ToolState × FS :=
  match fs filepath with
  | .absent => (st, fs)
  | .unreadable => (st, fs)
  | .file content0 =>
    let content := (applyRulesToml content0).1
    if content ≠ content0 then
      if st.dry_run then
        ({ st with changes_made := st.changes_made ++ [filepath] }, fs)
      else
        ({ st with changes_made := st.changes_made ++ [filepath] },
          update (backup_file st fs filepath) filepath (.file content))
    else (st, fs)

/-- State of a `run_migration` invocation.  `missing` models the
`⚠️ File not found` report lines. -/
structure RunState where
  tool : ToolState
  fs : FS
  missing : List Path

/-- One iteration of the Python-file loop of `run_migration`
(lines 190–195): process if `exists()`, otherwise record as missing. -/
def processPy (rs : RunState) (p : Path) : RunState :=
  if (rs.fs p).existsOnDisk then
    { tool := (migrate_python_file rs.tool rs.fs p).1,
      fs := (migrate_python_file rs.tool rs.fs p).2,
      missing := rs.missing }
  else { rs with missing := rs.missing ++ [p] }

/-- One iteration of the TOML-file loop (lines 199–204). -/
def processToml (rs : RunState) (p : Path) : RunState :=
  if (rs.fs p).existsOnDisk then
    { tool := (migrate_toml_file rs.tool rs.fs p).1,
      fs := (migrate_toml_file rs.tool rs.fs p).2,
      missing := rs.missing }
  else { rs with missing := rs.missing ++ [p] }

/-- `MigrationTool.run_migration` (lines 178–204): the Python batch, then
the TOML batch. -/
def run_migration (rs : RunState) (pyFiles tomlFiles : List Path) : RunState :=
  tomlFiles.foldl processToml (pyFiles.foldl processPy rs)

/-! ## `fix_ardupilot_for_isaac_4.5.py` model

`fix_vehicle_file` applies two substitutions: the literal dynamic-control
rule for imports, and the DOTALL non-greedy function-body rule
`def get_world_transform_xform\(prim: Usd\.Prim\):.*?return rotation`.
Both scripts create their backup immediately after reading, *before* the
changed-content check. -/

def dcPat : Str := ("from omni.isaac.dynamic_control import _dynamic_control").toList

def dcRepl : Str := ("from isaacsim.core.dynamic_control import _dynamic_control").toList

def fix2A : Str := ("def get_world_transform_xform(prim: Usd.Prim):").toList

def fix2B : Str := ("return rotation").toList

def newFunction : Str := ("def get_world_transform_xform(prim: Usd.Prim):\n    \"\"\"\n    Get the local transformation of a prim using USD APIs directly.\n    Compatible with Isaac Sim 4.5.\n    \n    Args:\n        prim (Usd.Prim): The prim to calculate the world transformation.\n    Returns:\n        Gf.Rotation: The rotation component of the world transform.\n    \"\"\"\n    from pxr import UsdGeom\n    \n    # Get the xformable interface\n    xformable = UsdGeom.Xformable(prim)\n    if not xformable:\n        carb.log_error(f\"Prim \x7bprim.GetPath()\x7d is not xformable\")\n        return Gf.Rotation()\n    \n    # Compute world transform at default time\n    time = Usd.TimeCode.Default()\n    world_transform = xformable.ComputeLocalToWorldTransform(time)\n    \n    # Extract rotation using Gf.Transform\n    transform = Gf.Transform(world_transform)\n    return transform.GetRotation()").toList

/-- Position of the leftmost occurrence of `b`. -/
def findSub (b : Str) : Str → Option Nat
  | [] => if b <+: ([] : Str) then some 0 else none
  | c :: t => if b <+: (c :: t) then some 0 else (findSub b t).map (· + 1)

/-- Leftmost-shortest (non-greedy `.*?` under DOTALL) match length of the
function-body pattern at the head of `s`. -/
def matchFix2 (s : Str) : Option Nat :=
  if fix2A <+: s then
    match findSub fix2B (s.drop fix2A.length) with
    | some k => some (fix2A.length + k + fix2B.length)
    | none => none
  else none

def replaceFix2Aux : Nat → Str → Str
  | _, [] => []
  | 0, s => s
  | fuel + 1, c :: t =>
    match matchFix2 (c :: t) with
    | some n => newFunction ++ replaceFix2Aux fuel ((c :: t).drop n)
    | none => c :: replaceFix2Aux fuel t

def replaceFix2 (s : Str) : Str := replaceFix2Aux s.length s

/-- The two substitutions of `fix_vehicle_file`, in source order. -/
def fixVehicleSubs (c : Str) : Str := replaceFix2 (replaceLit dcPat dcRepl c)

/-- `fix_vehicle_file` (lines 13–82): read; back up (if no backup exists)
*before* computing changes; substitute; write only if changed.  A read
failure propagates (uncaught) and leaves the filesystem unchanged. -/
def fix_vehicle_file (fs : FS) (filepath : Path) : FS :=
  match fs filepath with
  | .file content0 =>
    let fs1 := if (fs (ardBakPath filepath)).existsOnDisk then fs
               else update fs (ardBakPath filepath) (.file content0)
    let content := fixVehicleSubs content0
    if content ≠ content0 then update fs1 filepath (.file content) else fs1
  | _ => fs

/-- `fix_multirotor_file` (lines 84–115): like `fix_vehicle_file` with only
the dynamic-control substitution. -/
def fix_multirotor_file (fs : FS) (filepath : Path) : FS :=
  match fs filepath with
  | .file content0 =>
    let fs1 := if (fs (ardBakPath filepath)).existsOnDisk then fs
               else update fs (ardBakPath filepath) (.file content0)
    let content := replaceLit dcPat dcRepl content0
    if content ≠ content0 then update fs1 filepath (.file content) else fs1
  | _ => fs

/-! ## Pattern-validity model (for the fail-fast claim)

The source stores rule patterns as plain strings in module-level lists; no
validation happens at construction.  `re.findall` compiles the pattern at
first use inside the per-file loop, so a malformed pattern raises `re.error`
*there*, uncaught.  `RulePat.bad` stands for a pattern whose compilation
raises; `RulePat.lit` for a valid (escaped-literal) pattern.  The error value
carries the filesystem as it stands when the exception escapes. -/

inductive RulePat where
  | lit (pattern repl : Str)
  | bad (src : Str)
deriving DecidableEq

def RulePat.isLit : RulePat → Bool
  | .lit _ _ => true
  | .bad _ => false

/-- The rule loop with compile-at-use semantics. -/
def applyRulesE (rules : List RulePat) (c : Str) : Except Unit Str :=
  rules.foldl
    (fun acc r =>
      match acc, r with
      | .error e, _ => .error e
      | .ok cur, .lit p rp => .ok (replaceLit p rp cur)
      | .ok _, .bad _ => .error ())
    (.ok c)

/-- Per-file migration under compile-at-use semantics; mirrors
`migrate_python_file` but parameterised by the rule list.  A raised
`re.error` escapes before any write, leaving the disk in its current state
(carried by the `error` value). -/
def migrateFileE (rules : List RulePat) (dry no_backup : Bool)
    (fs : FS) (filepath : Path) : Except FS FS :=
  match fs filepath with
  | .absent => .ok fs
  | .unreadable => .ok fs
  | .file content0 =>
    match applyRulesE rules content0 with
    | .error _ => .error fs
    | .ok content =>
      if content ≠ content0 then
        if dry then .ok fs
        else .ok (update
          (backup_file ⟨dry, no_backup, [], []⟩ fs filepath)
          filepath (.file content))
      else .ok fs

def processE (rules : List RulePat) (dry no_backup : Bool)
    (acc : Except FS FS) (p : Path) : Except FS FS :=
  match acc with
  | .error e => .error e
  | .ok fs =>
    if (fs p).existsOnDisk then migrateFileE rules dry no_backup fs p
    else .ok fs

/-- `run_migration` under compile-at-use semantics: Python batch then TOML
batch, each with its own rule list; an uncaught `re.error` aborts the run,
retaining all modifications already made. -/
def runE (pyRules tomlRules : List RulePat) (dry no_backup : Bool)
    (fs : FS) (pyFiles tomlFiles : List Path) : Except FS FS :=
  tomlFiles.foldl (processE tomlRules dry no_backup)
    (pyFiles.foldl (processE pyRules dry no_backup) (.ok fs))

/-! ## Bridging lemmas between the migrate loops and the plain rule folds -/

lemma replaceLit_id_of_no_matches {p r : Str} :
    ∀ {c : Str}, litMatches p c = [] → replaceLit p r c = c := by
  intro c
  induction c with
  | nil => intro _; rfl
  | cons a t ih =>
    intro h
    by_cases hm : p ≠ [] ∧ p <+: (a :: t)
    · rw [litMatches_pos hm] at h
      exact absurd h (List.cons_ne_nil _ _)
    · rw [litMatches_neg hm] at h
      rw [replaceLit_neg r hm, ih h]

lemma litMatches_mem_aux {p : Str} :
    ∀ (n : Nat) (s : Str), s.length ≤ n → ∀ m ∈ litMatches p s, m = p := by
  intro n
  induction n with
  | zero =>
    intro s hs m hm
    have : s = [] := List.length_eq_zero.mp (Nat.le_zero.mp hs)
    subst this
    simp [litMatches_nil] at hm
  | succ n ih =>
    intro s hs m hm
    cases s with
    | nil => simp [litMatches_nil] at hm
    | cons a t =>
      have hs' : t.length + 1 ≤ n + 1 := by simpa using hs
      by_cases hmt : p ≠ [] ∧ p <+: (a :: t)
      · rw [litMatches_pos hmt] at hm
        rcases List.mem_cons.mp hm with rfl | h2
        · exact (List.prefix_iff_eq_take.mp hmt.2).symm
        · have hp : 1 ≤ p.length := by
            cases p with
            | nil => exact absurd rfl hmt.1
            | cons x y => simp
          exact ih _ (by simp only [List.length_drop, List.length_cons]; omega) m h2
      · rw [litMatches_neg hmt] at hm
        exact ih t (by omega) m hm

lemma litMatches_mem {p s m : Str} (h : m ∈ litMatches p s) : m = p :=
  litMatches_mem_aux s.length s le_rfl m h

lemma applyAllLit_cons (pr : Str × Str) (rest : List (Str × Str)) (c : Str) :
    applyAllLit (pr :: rest) c = applyAllLit rest (replaceLit pr.1 pr.2 c) := rfl

/-- The loop body of `migrate_python_file` / `migrate_toml_file`. -/
def ruleStep (acc : Str × List (Str × Str)) (pr : Str × Str) :
    Str × List (Str × Str) :=
  match litMatches pr.1 acc.1 with
  | [] => acc
  | m :: _ => (replaceLit pr.1 pr.2 acc.1, acc.2 ++ [(m, pr.2)])

lemma applyRulesPy_eq_foldl (c : Str) :
    applyRulesPy c = PYTHON_REPLACEMENTS.foldl ruleStep (c, []) := rfl

lemma ruleStep_foldl_fst :
    ∀ (rules : List (Str × Str)) (c : Str) (acc : List (Str × Str)),
      (rules.foldl ruleStep (c, acc)).1 = applyAllLit rules c := by
  intro rules
  induction rules with
  | nil => intro c acc; rfl
  | cons pr rest ih =>
    intro c acc
    rw [List.foldl_cons, applyAllLit_cons]
    rcases hm : litMatches pr.1 c with _ | ⟨m, ms⟩
    · simp only [ruleStep, hm]
      rw [replaceLit_id_of_no_matches hm]
      exact ih c acc
    · simp only [ruleStep, hm]
      exact ih _ _

/-- The `migrate_python_file` loop computes the plain sequential fold. -/
lemma applyRulesPy_fst (c : Str) :
    (applyRulesPy c).1 = applyAllLit PYTHON_REPLACEMENTS c := by
  rw [applyRulesPy_eq_foldl]
  exact ruleStep_foldl_fst PYTHON_REPLACEMENTS c []

lemma ruleStep_foldl_snd :
    ∀ (rules : List (Str × Str)) (c : Str) (acc : List (Str × Str)),
      ∀ e ∈ (rules.foldl ruleStep (c, acc)).2, e ∈ acc ∨ e ∈ rules := by
  intro rules
  induction rules with
  | nil => intro c acc e he; exact Or.inl he
  | cons pr rest ih =>
    intro c acc e he
    rw [List.foldl_cons] at he
    rcases hm : litMatches pr.1 c with _ | ⟨m, ms⟩
    · simp only [ruleStep, hm] at he
      rcases ih c acc e he with h | h
      · exact Or.inl h
      · exact Or.inr (List.mem_cons_of_mem _ h)
    · simp only [ruleStep, hm] at he
      rcases ih _ _ e he with h | h
      · rcases List.mem_append.mp h with h2 | h2
        · exact Or.inl h2
        · -- e = (m, pr.2) with m = pr.1 since the rule is a literal
          have hme : e = (m, pr.2) := by simpa using h2
          have : m = pr.1 := litMatches_mem (hm ▸ List.mem_cons_self m ms)
          right
          rw [hme, this]
          exact List.mem_cons_self _ _
      · exact Or.inr (List.mem_cons_of_mem _ h)

/-- Every entry the Python loop records is one of the table's rules: for a
literal rule the first matched substring *is* the pattern literal. -/
lemma applyRulesPy_snd_mem (c : Str) :
    ∀ e ∈ (applyRulesPy c).2, e ∈ PYTHON_REPLACEMENTS := by
  intro e he
  rw [applyRulesPy_eq_foldl] at he
  rcases ruleStep_foldl_snd PYTHON_REPLACEMENTS c [] e he with h | h
  · simp at h
  · exact h

lemma tomlMatches_eq_nil_of_no_match :
    ∀ {s : Str}, (∀ t, t <:+ s → matchToml t = none) → tomlMatches s = [] := by
  intro s
  induction s with
  | nil => intro _; rfl
  | cons c t ih =>
    intro h
    rw [tomlMatches_neg (h _ (List.suffix_refl _))]
    exact ih (fun u hu => h u (hu.trans (List.suffix_cons c t)))

/-! ## Claim theorems -/

/-- C3: applying the ordered `PYTHON_REPLACEMENTS` (resp. the TOML rule)
once and then again yields the same text as applying them once, and the
migrate loops report no change on already-migrated content — a second run
reports zero changed files. -/
theorem C3_rules_idempotent (c : Str) :
    applyAllLit PYTHON_REPLACEMENTS (applyAllLit PYTHON_REPLACEMENTS c) =
      applyAllLit PYTHON_REPLACEMENTS c ∧
    replaceToml (replaceToml c) = replaceToml c ∧
    (applyRulesPy (applyAllLit PYTHON_REPLACEMENTS c)).1 =
      applyAllLit PYTHON_REPLACEMENTS c ∧
    (applyRulesToml (replaceToml c)).1 = replaceToml c := by
  refine ⟨pyApply_idem c, tomlApply_idem c, ?_, ?_⟩
  · rw [applyRulesPy_fst]
    exact pyApply_idem c
  · have hnone := tomlMatches_eq_nil_of_no_match
      (fun t ht => replaceToml_no_match c.length c le_rfl t ht)
    unfold applyRulesToml
    rw [hnone]

/-- C5 (counterexample): content `ARDUPILOT` is attention-flagged by the
code although neither `ardupilot` nor `ArduPilot` occurs case-sensitively in
it — the scan is not a case-sensitive substring search. -/
theorem C5_counterexample :
    ardupilotFlag (("ARDUPILOT").toList) = true ∧
    ¬ ("ardupilot").toList <:+: ("ARDUPILOT").toList ∧
    ¬ ("ArduPilot").toList <:+: ("ARDUPILOT").toList := by decide

/-- C5 (amended): the attention scan is case-insensitive — a file is
flagged exactly when `ardupilot` occurs in the lower-cased content (the
separate case-sensitive `ArduPilot` check is subsumed). -/
theorem C5_attention_case_insensitive (c : Str) :
    ardupilotFlag c = true ↔ ("ardupilot").toList <:+: lowerStr c := by
  simp only [ardupilotFlag, Bool.or_eq_true, decide_eq_true_eq]
  constructor
  · rintro (h | h)
    · exact h
    · rcases h with ⟨u, v, huv⟩
      refine ⟨lowerStr u, lowerStr v, ?_⟩
      have : lowerStr (u ++ ("ArduPilot").toList ++ v) = lowerStr c :=
        congrArg lowerStr huv
      simp only [lowerStr, List.map_append] at this
      have harlow : (("ArduPilot").toList).map Char.toLower = ("ardupilot").toList := by
        decide
      rw [harlow] at this
      exact this
  · intro h
    exact Or.inl h

/-- C8 (counterexample): on a TOML content that the rule matches,
`migrate_toml_file` records the regex *source text* (`old_pattern`), not the
first matched substring — here the match is the whole content, which differs
from the recorded pattern text. -/
theorem C8_counterexample :
    applyRulesToml (("\"omni.isaac.core\" = \x7b\x7d").toList) =
      (tomlRepl, [(tomlSrc, tomlRepl)]) ∧
    tomlMatches (("\"omni.isaac.core\" = \x7b\x7d").toList) =
      [("\"omni.isaac.core\" = \x7b\x7d").toList] ∧
    tomlSrc ≠ ("\"omni.isaac.core\" = \x7b\x7d").toList := by decide

/-- C8 (amended): all non-overlapping occurrences are substituted in both
functions; `migrate_python_file` records the first matched substring, which
for a literal rule equals the rule's pattern (so every record is a rule of
the table); `migrate_toml_file` records the rule's pattern source text, not
the matched substring. -/
theorem C8_first_match_reporting (c : Str) :
    (∀ e ∈ (applyRulesPy c).2, e ∈ PYTHON_REPLACEMENTS) ∧
    (∀ p s m, m ∈ litMatches p s → m = p) ∧
    ((applyRulesToml c).2 =
      if tomlMatches c = [] then [] else [(tomlSrc, tomlRepl)]) ∧
    (∀ t, t <:+ replaceToml c → matchToml t = none) := by
  refine ⟨applyRulesPy_snd_mem c, fun p s m hm => litMatches_mem hm, ?_, ?_⟩
  · unfold applyRulesToml
    rcases h : tomlMatches c with _ | ⟨m, ms⟩ <;> simp
  · exact fun t ht => replaceToml_no_match c.length c le_rfl t ht

/-- C8 (amended) at a concrete input. -/
theorem C8_first_match_reporting_witness :
    (∀ e ∈ (applyRulesPy (("x").toList)).2, e ∈ PYTHON_REPLACEMENTS) ∧
    (∀ p s m, m ∈ litMatches p s → m = p) ∧
    ((applyRulesToml (("x").toList)).2 =
      if tomlMatches (("x").toList) = [] then [] else [(tomlSrc, tomlRepl)]) ∧
    (∀ t, t <:+ replaceToml (("x").toList) → matchToml t = none) :=
  C8_first_match_reporting (("x").toList)

/-- C2: for every file content and state, dry-run mode produces exactly the
same `changes_made` and `warnings` as live mode, and performs no filesystem
mutation — the modes differ only in backup/write, never in the reported
decisions. -/
theorem C2_dry_run_purity (nb : Bool) (cm w : List Path) (fs : FS) (p : Path) :
    (migrate_python_file ⟨true, nb, cm, w⟩ fs p).1.changes_made =
      (migrate_python_file ⟨false, nb, cm, w⟩ fs p).1.changes_made ∧
    (migrate_python_file ⟨true, nb, cm, w⟩ fs p).1.warnings =
      (migrate_python_file ⟨false, nb, cm, w⟩ fs p).1.warnings ∧
    (∀ q, (migrate_python_file ⟨true, nb, cm, w⟩ fs p).2 q = fs q) ∧
    (migrate_toml_file ⟨true, nb, cm, w⟩ fs p).1.changes_made =
      (migrate_toml_file ⟨false, nb, cm, w⟩ fs p).1.changes_made ∧
    (migrate_toml_file ⟨true, nb, cm, w⟩ fs p).1.warnings =
      (migrate_toml_file ⟨false, nb, cm, w⟩ fs p).1.warnings ∧
    (∀ q, (migrate_toml_file ⟨true, nb, cm, w⟩ fs p).2 q = fs q) := by
  cases hfp : fs p with
  | absent => simp [migrate_python_file, migrate_toml_file, hfp]
  | unreadable => simp [migrate_python_file, migrate_toml_file, hfp]
  | file content0 =>
    refine ⟨?_, ?_, ?_, ?_, ?_, ?_⟩ <;>
      simp only [migrate_python_file, migrate_toml_file, hfp] <;>
      split_ifs <;>
      simp_all

/-- C9: a read failure makes the migration of that file reportless and
effect-free — the function returns before any rule application, backup,
write, or report mutation (and an absent file behaves the same if reached). -/
theorem C9_read_failure_reportless (st : ToolState) (fs : FS) (p : Path)
    (h : fs p = .unreadable ∨ fs p = .absent) :
    migrate_python_file st fs p = (st, fs) ∧
    migrate_toml_file st fs p = (st, fs) := by
  rcases h with h | h <;>
    exact ⟨by simp [migrate_python_file, h], by simp [migrate_toml_file, h]⟩

def exUnreadableFs : FS :=
  fun q => if q = ("vehicle.py").toList then .unreadable else .absent

/-- C9 at a concrete input: an unreadable file is skipped untouched. -/
theorem C9_read_failure_reportless_witness :
    migrate_python_file ⟨false, false, [], []⟩ exUnreadableFs
        (("vehicle.py").toList) = (⟨false, false, [], []⟩, exUnreadableFs) ∧
    migrate_toml_file ⟨false, false, [], []⟩ exUnreadableFs
        (("vehicle.py").toList) = (⟨false, false, [], []⟩, exUnreadableFs) :=
  C9_read_failure_reportless ⟨false, false, [], []⟩ exUnreadableFs
    (("vehicle.py").toList) (Or.inl (by decide))

lemma processToml_warnings (rs : RunState) (p : Path) :
    (processToml rs p).tool.warnings = rs.tool.warnings := by
  unfold processToml
  split
  · show (migrate_toml_file rs.tool rs.fs p).1.warnings = rs.tool.warnings
    cases hfp : rs.fs p with
    | absent => simp [migrate_toml_file, hfp]
    | unreadable => simp [migrate_toml_file, hfp]
    | file content0 =>
      simp only [migrate_toml_file, hfp]
      split_ifs <;> simp
  · rfl

lemma foldToml_warnings :
    ∀ (l : List Path) (rs : RunState),
      (l.foldl processToml rs).tool.warnings = rs.tool.warnings := by
  intro l
  induction l with
  | nil => intro rs; rfl
  | cons p rest ih =>
    intro rs
    rw [List.foldl_cons, ih, processToml_warnings]

/-- C10: TOML files are never attention-scanned — `migrate_toml_file` leaves
`warnings` unchanged whatever the content, and across a whole run the
warnings list is exactly what the Python phase produced. -/
theorem C10_toml_never_attention_flagged (st : ToolState) (fs : FS) (p : Path)
    (rs : RunState) (pyFiles tomlFiles : List Path) :
    (migrate_toml_file st fs p).1.warnings = st.warnings ∧
    (run_migration rs pyFiles tomlFiles).tool.warnings =
      (pyFiles.foldl processPy rs).tool.warnings := by
  constructor
  · cases hfp : fs p with
    | absent => simp [migrate_toml_file, hfp]
    | unreadable => simp [migrate_toml_file, hfp]
    | file content0 =>
      simp only [migrate_toml_file, hfp]
      split_ifs <;> simp
  · exact foldToml_warnings tomlFiles _

def exVehiclePath : Path := ("vehicle.py").toList

def exFsC4 : FS :=
  fun q => if q = exVehiclePath then .file (("x").toList) else .absent

/-- C4 (counterexample): on content left unchanged by every rule,
`fix_vehicle_file` still creates a backup file — the file is not left
entirely untouched on disk. -/
theorem C4_counterexample :
    fixVehicleSubs (("x").toList) = ("x").toList ∧
    exFsC4 (ardBakPath exVehiclePath) = FileEntry.absent ∧
    fix_vehicle_file exFsC4 exVehiclePath (ardBakPath exVehiclePath) =
      FileEntry.file (("x").toList) := by decide

/-- C4 (amended): when the rules leave the content unchanged,
`migrate_python_file` and `migrate_toml_file` touch nothing on disk (no
backup, no write), while `fix_vehicle_file` and `fix_multirotor_file`
perform no write but still create their backup if none exists. -/
theorem C4_unchanged_is_untouched :
    (∀ (st : ToolState) (fs : FS) (p : Path) (c : Str),
        fs p = FileEntry.file c → (applyRulesPy c).1 = c →
        (migrate_python_file st fs p).2 = fs) ∧
    (∀ (st : ToolState) (fs : FS) (p : Path) (c : Str),
        fs p = FileEntry.file c → (applyRulesToml c).1 = c →
        (migrate_toml_file st fs p).2 = fs) ∧
    (∀ (fs : FS) (p : Path) (c : Str),
        fs p = FileEntry.file c → fixVehicleSubs c = c →
        fix_vehicle_file fs p =
          (if (fs (ardBakPath p)).existsOnDisk then fs
           else update fs (ardBakPath p) (FileEntry.file c))) ∧
    (∀ (fs : FS) (p : Path) (c : Str),
        fs p = FileEntry.file c → replaceLit dcPat dcRepl c = c →
        fix_multirotor_file fs p =
          (if (fs (ardBakPath p)).existsOnDisk then fs
           else update fs (ardBakPath p) (FileEntry.file c))) := by
  refine ⟨?_, ?_, ?_, ?_⟩
  · intro st fs p c hfp hid
    simp [migrate_python_file, hfp, hid]
  · intro st fs p c hfp hid
    simp [migrate_toml_file, hfp, hid]
  · intro fs p c hfp hid
    simp [fix_vehicle_file, hfp, hid]
  · intro fs p c hfp hid
    simp [fix_multirotor_file, hfp, hid]

/-- C4 (amended) at a concrete input. -/
theorem C4_unchanged_is_untouched_witness :
    (migrate_python_file ⟨false, false, [], []⟩ exFsC4 exVehiclePath).2 = exFsC4 ∧
    (migrate_toml_file ⟨false, false, [], []⟩ exFsC4 exVehiclePath).2 = exFsC4 ∧
    fix_vehicle_file exFsC4 exVehiclePath =
      (if (exFsC4 (ardBakPath exVehiclePath)).existsOnDisk then exFsC4
       else update exFsC4 (ardBakPath exVehiclePath)
         (FileEntry.file (("x").toList))) ∧
    fix_multirotor_file exFsC4 exVehiclePath =
      (if (exFsC4 (ardBakPath exVehiclePath)).existsOnDisk then exFsC4
       else update exFsC4 (ardBakPath exVehiclePath)
         (FileEntry.file (("x").toList))) :=
  ⟨C4_unchanged_is_untouched.1 ⟨false, false, [], []⟩ exFsC4 exVehiclePath
     (("x").toList) (by decide) (by decide),
   C4_unchanged_is_untouched.2.1 ⟨false, false, [], []⟩ exFsC4 exVehiclePath
     (("x").toList) (by decide) (by decide),
   C4_unchanged_is_untouched.2.2.1 exFsC4 exVehiclePath (("x").toList)
     (by decide) (by decide),
   C4_unchanged_is_untouched.2.2.2 exFsC4 exVehiclePath (("x").toList)
     (by decide) (by decide)⟩

/-! ### Backup-once machinery (C1) -/

lemma existsOnDisk_false_iff {e : FileEntry} :
    e.existsOnDisk = false ↔ e = .absent := by
  cases e <;> simp [FileEntry.existsOnDisk]

lemma backup_file_other (st : ToolState) (fs : FS) (p : Path) {q : Path}
    (hq : q ≠ bakPath p) : backup_file st fs p q = fs q := by
  unfold backup_file
  split_ifs with h1 h2
  · rfl
  · rfl
  · unfold update
    rw [if_neg hq]

lemma backup_file_keeps_file (st : ToolState) (fs : FS) (p : Path) {q : Path}
    {b : Str} (hq : fs q = .file b) : backup_file st fs p q = .file b := by
  by_cases hqb : q = bakPath p
  · subst hqb
    unfold backup_file
    split_ifs with h1 h2
    · exact hq
    · exact hq
    · rw [Bool.not_eq_true] at h2
      rw [existsOnDisk_false_iff.mp h2] at hq
      exact absurd hq (by simp)
  · rw [backup_file_other st fs p hqb]
    exact hq

lemma migrate_python_keeps_file (st : ToolState) (fs : FS) (p : Path)
    {q : Path} {b : Str} (hqp : q ≠ p) (hq : fs q = .file b) :
    (migrate_python_file st fs p).2 q = .file b := by
  cases hfp : fs p with
  | absent => simpa [migrate_python_file, hfp] using hq
  | unreadable => simpa [migrate_python_file, hfp] using hq
  | file content0 =>
    simp only [migrate_python_file, hfp]
    split_ifs <;> try exact hq
    all_goals
      show update (backup_file _ fs p) p _ q = _
    all_goals
      unfold update
      rw [if_neg hqp]
      exact backup_file_keeps_file _ fs p hq

lemma migrate_toml_keeps_file (st : ToolState) (fs : FS) (p : Path)
    {q : Path} {b : Str} (hqp : q ≠ p) (hq : fs q = .file b) :
    (migrate_toml_file st fs p).2 q = .file b := by
  cases hfp : fs p with
  | absent => simpa [migrate_toml_file, hfp] using hq
  | unreadable => simpa [migrate_toml_file, hfp] using hq
  | file content0 =>
    simp only [migrate_toml_file, hfp]
    split_ifs <;> try exact hq
    all_goals
      show update (backup_file _ fs p) p _ q = _
    all_goals
      unfold update
      rw [if_neg hqp]
      exact backup_file_keeps_file _ fs p hq

lemma processPy_keeps_file (rs : RunState) (p : Path) {q : Path} {b : Str}
    (hqp : q ≠ p) (hq : rs.fs q = .file b) :
    (processPy rs p).fs q = .file b := by
  unfold processPy
  split
  · exact migrate_python_keeps_file rs.tool rs.fs p hqp hq
  · exact hq

lemma processToml_keeps_file (rs : RunState) (p : Path) {q : Path} {b : Str}
    (hqp : q ≠ p) (hq : rs.fs q = .file b) :
    (processToml rs p).fs q = .file b := by
  unfold processToml
  split
  · exact migrate_toml_keeps_file rs.tool rs.fs p hqp hq
  · exact hq

lemma foldPy_keeps_file :
    ∀ (l : List Path) (rs : RunState) {q : Path} {b : Str},
      q ∉ l → rs.fs q = .file b → (l.foldl processPy rs).fs q = .file b := by
  intro l
  induction l with
  | nil => intro rs q b _ hq; exact hq
  | cons p rest ih =>
    intro rs q b hnm hq
    rw [List.foldl_cons]
    exact ih _ (fun h => hnm (List.mem_cons_of_mem _ h))
      (processPy_keeps_file rs p (fun h => hnm (h ▸ List.mem_cons_self _ _)) hq)

lemma foldToml_keeps_file :
    ∀ (l : List Path) (rs : RunState) {q : Path} {b : Str},
      q ∉ l → rs.fs q = .file b → (l.foldl processToml rs).fs q = .file b := by
  intro l
  induction l with
  | nil => intro rs q b _ hq; exact hq
  | cons p rest ih =>
    intro rs q b hnm hq
    rw [List.foldl_cons]
    exact ih _ (fun h => hnm (List.mem_cons_of_mem _ h))
      (processToml_keeps_file rs p (fun h => hnm (h ▸ List.mem_cons_self _ _)) hq)

/-- One invocation of `run_migration` with its own flags and batch. -/
structure RunCfg where
  dry : Bool
  nb : Bool
  pyFiles : List Path
  tomlFiles : List Path

def applyRun (fs : FS) (cfg : RunCfg) : FS :=
  (run_migration ⟨⟨cfg.dry, cfg.nb, [], []⟩, fs, []⟩ cfg.pyFiles cfg.tomlFiles).fs

lemma applyRun_keeps_file (cfg : RunCfg) (fs : FS) {q : Path} {b : Str}
    (h1 : q ∉ cfg.pyFiles) (h2 : q ∉ cfg.tomlFiles) (hq : fs q = .file b) :
    applyRun fs cfg q = .file b := by
  unfold applyRun run_migration
  exact foldToml_keeps_file _ _ h2 (foldPy_keeps_file _ _ h1 hq)

/-- C1: `backup_file` copies the target to its derived backup path only when
nothing exists there, the copied content is the target's current (pre-write)
content, and across any number of runs an existing backup — of the migrate
tool or of the fix script — is never overwritten. -/
theorem C1_backup_once :
    (∀ (st : ToolState) (fs : FS) (p : Path), fs (bakPath p) ≠ .absent →
        ∀ q, backup_file st fs p q = fs q) ∧
    (∀ (st : ToolState) (fs : FS) (p : Path), fs (bakPath p) = .absent →
        backup_file st fs p (bakPath p) = .absent ∨
        backup_file st fs p (bakPath p) = fs p) ∧
    (∀ (cfgs : List RunCfg) (fs : FS) (t : Path) (b : Str),
        (∀ cfg ∈ cfgs, bakPath t ∉ cfg.pyFiles ∧ bakPath t ∉ cfg.tomlFiles) →
        fs (bakPath t) = .file b →
        (cfgs.foldl applyRun fs) (bakPath t) = .file b) ∧
    (∀ (fs : FS) (p : Path) (b : Str), fs (ardBakPath p) = .file b →
        fix_vehicle_file fs p (ardBakPath p) = .file b ∧
        fix_multirotor_file fs p (ardBakPath p) = .file b) := by
  refine ⟨?_, ?_, ?_, ?_⟩
  · intro st fs p hb q
    by_cases hq : q = bakPath p
    · subst hq
      unfold backup_file
      split_ifs with h1 h2
      · rfl
      · rfl
      · rw [Bool.not_eq_true] at h2
        exact absurd (existsOnDisk_false_iff.mp h2) hb
    · exact backup_file_other st fs p hq
  · intro st fs p hb
    unfold backup_file
    split_ifs with h1 h2
    · left; exact hb
    · left; exact hb
    · right
      unfold update
      rw [if_pos rfl]
  · intro cfgs
    induction cfgs with
    | nil => intro fs t b _ hb; exact hb
    | cons cfg rest ih =>
      intro fs t b hcfg hb
      rw [List.foldl_cons]
      refine ih _ t b (fun c hc => hcfg c (List.mem_cons_of_mem _ hc)) ?_
      have h := hcfg cfg (List.mem_cons_self _ _)
      exact applyRun_keeps_file cfg fs h.1 h.2 hb
  · intro fs p b hb
    have hne : ardBakPath p ≠ p := by
      intro h
      have := congrArg List.length h
      rw [ardBakPath, List.length_append] at this
      have h4 : ((".ardupilot_backup").toList).length = 17 := by decide
      omega
    have hex : (fs (ardBakPath p)).existsOnDisk = true := by rw [hb]; rfl
    constructor
    · unfold fix_vehicle_file
      cases hfp : fs p with
      | absent => exact hb
      | unreadable => exact hb
      | file c0 =>
        simp only []
        rw [if_pos hex]
        split
        · unfold update
          rw [if_neg hne]
          exact hb
        · exact hb
    · unfold fix_multirotor_file
      cases hfp : fs p with
      | absent => exact hb
      | unreadable => exact hb
      | file c0 =>
        simp only []
        rw [if_pos hex]
        split
        · unfold update
          rw [if_neg hne]
          exact hb
        · exact hb

def exTargetPath : Path := ("multirotor.py").toList

def exOldBackup : Str := ("old snapshot").toList

def exFsC1 : FS :=
  fun q =>
    if q = exTargetPath then .file (("from omni.isaac.core import World").toList)
    else if q = bakPath exTargetPath then .file exOldBackup
    else if q = ardBakPath exTargetPath then .file exOldBackup
    else .absent

/-- C1 at concrete inputs: a live run over a tree whose backup already
exists leaves the backup's original snapshot in place. -/
theorem C1_backup_once_witness :
    (∀ q, backup_file ⟨false, false, [], []⟩ exFsC1 exTargetPath q = exFsC1 q) ∧
    ([RunCfg.mk false false [exTargetPath] []].foldl applyRun exFsC1)
      (bakPath exTargetPath) = .file exOldBackup ∧
    fix_vehicle_file exFsC1 exTargetPath (ardBakPath exTargetPath) =
      .file exOldBackup := by
  refine ⟨?_, ?_, ?_⟩
  · exact C1_backup_once.1 ⟨false, false, [], []⟩ exFsC1 exTargetPath (by decide)
  · exact C1_backup_once.2.2.1 [RunCfg.mk false false [exTargetPath] []]
      exFsC1 exTargetPath exOldBackup (by decide) (by decide)
  · exact (C1_backup_once.2.2.2 exFsC1 exTargetPath exOldBackup (by decide)).1

/-! ### Missing-file tolerance machinery (C7) -/

lemma processPy_missing_decomp (tool : ToolState) (fs : FS) (m : List Path)
    (p : Path) :
    processPy ⟨tool, fs, m⟩ p =
      { processPy ⟨tool, fs, []⟩ p with
        missing := m ++ (processPy ⟨tool, fs, []⟩ p).missing } := by
  by_cases h : (fs p).existsOnDisk <;> simp [processPy, h]

lemma processToml_missing_decomp (tool : ToolState) (fs : FS) (m : List Path)
    (p : Path) :
    processToml ⟨tool, fs, m⟩ p =
      { processToml ⟨tool, fs, []⟩ p with
        missing := m ++ (processToml ⟨tool, fs, []⟩ p).missing } := by
  by_cases h : (fs p).existsOnDisk <;> simp [processToml, h]

lemma foldPy_missing_decomp :
    ∀ (l : List Path) (tool : ToolState) (fs : FS) (m : List Path),
      l.foldl processPy ⟨tool, fs, m⟩ =
        { l.foldl processPy ⟨tool, fs, []⟩ with
          missing := m ++ (l.foldl processPy ⟨tool, fs, []⟩).missing } := by
  intro l
  induction l with
  | nil => intro tool fs m; simp
  | cons p rest ih =>
    intro tool fs m
    rw [List.foldl_cons, List.foldl_cons, processPy_missing_decomp]
    rcases hX : processPy ⟨tool, fs, []⟩ p with ⟨tool', fs', m'⟩
    simp only []
    rw [ih tool' fs' (m ++ m'), ih tool' fs' m']
    simp [List.append_assoc]

lemma foldToml_missing_decomp :
    ∀ (l : List Path) (tool : ToolState) (fs : FS) (m : List Path),
      l.foldl processToml ⟨tool, fs, m⟩ =
        { l.foldl processToml ⟨tool, fs, []⟩ with
          missing := m ++ (l.foldl processToml ⟨tool, fs, []⟩).missing } := by
  intro l
  induction l with
  | nil => intro tool fs m; simp
  | cons p rest ih =>
    intro tool fs m
    rw [List.foldl_cons, List.foldl_cons, processToml_missing_decomp]
    rcases hX : processToml ⟨tool, fs, []⟩ p with ⟨tool', fs', m'⟩
    simp only []
    rw [ih tool' fs' (m ++ m'), ih tool' fs' m']
    simp [List.append_assoc]

lemma run_missing_decomp (pyFiles tomlFiles : List Path) (tool : ToolState)
    (fs : FS) (m : List Path) :
    run_migration ⟨tool, fs, m⟩ pyFiles tomlFiles =
      { run_migration ⟨tool, fs, []⟩ pyFiles tomlFiles with
        missing :=
          m ++ (run_migration ⟨tool, fs, []⟩ pyFiles tomlFiles).missing } := by
  unfold run_migration
  rw [foldPy_missing_decomp]
  rcases hX : pyFiles.foldl processPy ⟨tool, fs, []⟩ with ⟨tool', fs', m'⟩
  simp only []
  rw [foldToml_missing_decomp tomlFiles tool' fs' (m ++ m'),
    foldToml_missing_decomp tomlFiles tool' fs' m']
  simp [List.append_assoc]

/-- C7: a non-existent path never raises — the run records it in the
missing report and continues: the step only appends the path to `missing`,
the batch fold continues from that state, and the missing accumulator has no
influence on how the remaining files are processed. -/
theorem C7_missing_file_tolerance (rs : RunState) (p : Path)
    (h : rs.fs p = .absent) :
    processPy rs p = { rs with missing := rs.missing ++ [p] } ∧
    processToml rs p = { rs with missing := rs.missing ++ [p] } ∧
    (∀ (rest tomlFiles : List Path),
        run_migration rs (p :: rest) tomlFiles =
          run_migration (processPy rs p) rest tomlFiles) ∧
    (∀ (pyFiles tomlFiles : List Path) (tool : ToolState) (fs : FS)
        (m : List Path),
        run_migration ⟨tool, fs, m⟩ pyFiles tomlFiles =
          { run_migration ⟨tool, fs, []⟩ pyFiles tomlFiles with
            missing :=
              m ++ (run_migration ⟨tool, fs, []⟩ pyFiles tomlFiles).missing }) := by
  refine ⟨?_, ?_, ?_, ?_⟩
  · simp [processPy, h, FileEntry.existsOnDisk]
  · simp [processToml, h, FileEntry.existsOnDisk]
  · intro rest tomlFiles
    rfl
  · intro pyFiles tomlFiles tool fs m
    exact run_missing_decomp pyFiles tomlFiles tool fs m

def exRunStateC7 : RunState := ⟨⟨false, false, [], []⟩, exFsC1, []⟩

def exMissingPath : Path := ("missing.py").toList

/-- C7 at a concrete input: an absent path is only recorded as missing. -/
theorem C7_missing_file_tolerance_witness :
    processPy exRunStateC7 exMissingPath =
      { exRunStateC7 with missing := exRunStateC7.missing ++ [exMissingPath] } ∧
    processToml exRunStateC7 exMissingPath =
      { exRunStateC7 with missing := exRunStateC7.missing ++ [exMissingPath] } :=
  ⟨(C7_missing_file_tolerance exRunStateC7 exMissingPath (by decide)).1,
   (C7_missing_file_tolerance exRunStateC7 exMissingPath (by decide)).2.1⟩

/-! ### Pattern-validation claims (C6) -/

def isErrE (e : Except FS FS) : Bool :=
  match e with
  | .error _ => true
  | .ok _ => false

def errFsAt (e : Except FS FS) (p : Path) : FileEntry :=
  match e with
  | .error fs => fs p
  | .ok fs => fs p

def exPyPath : Path := ("examples/app.py").toList

def exTomlPath : Path := ("config/extension.toml").toList

def exPyContent : Str := ("from omni.isaac.core import World").toList

def exMigrated : Str := ("from isaacsim.core.api import World").toList

def exFsC6 : FS :=
  fun q =>
    if q = exPyPath then .file exPyContent
    else if q = exTomlPath then .file (("x").toList)
    else .absent

def exGoodRules : List RulePat :=
  [RulePat.lit (("from omni.isaac.core import World").toList)
    (("from isaacsim.core.api import World").toList)]

def exBadRules : List RulePat := [RulePat.bad tomlSrc]

/-- C6 (counterexample): with a malformed pattern in the TOML rule list, the
run is *not* aborted at construction before any file is touched: it raises
at per-file application time, after the Python file has already been
modified on disk. -/
theorem C6_counterexample :
    isErrE (runE exGoodRules exBadRules false false exFsC6
        [exPyPath] [exTomlPath]) = true ∧
    errFsAt (runE exGoodRules exBadRules false false exFsC6
        [exPyPath] [exTomlPath]) exPyPath = FileEntry.file exMigrated ∧
    exMigrated ≠ exPyContent := by decide

lemma applyRulesE_lit_ok :
    ∀ (rules : List RulePat), (∀ r ∈ rules, r.isLit = true) →
      ∀ (acc : Except Unit Str),
        (match acc with | .ok _ => True | .error _ => False) →
        (match rules.foldl
            (fun acc r =>
              match acc, r with
              | .error e, _ => .error e
              | .ok cur, .lit p rp => .ok (replaceLit p rp cur)
              | .ok _, .bad _ => .error ())
            acc with
          | .ok _ => True | .error _ => False) := by
  intro rules
  induction rules with
  | nil => intro _ acc h; exact h
  | cons r rest ih =>
    intro hlit acc h
    rw [List.foldl_cons]
    cases acc with
    | error e => exact absurd h (by simp)
    | ok cur =>
      cases r with
      | lit p rp =>
        exact ih (fun r hr => hlit r (List.mem_cons_of_mem _ hr)) _ trivial
      | bad src =>
        have := hlit (RulePat.bad src) (List.mem_cons_self _ _)
        simp [RulePat.isLit] at this

lemma migrateFileE_ok (rules : List RulePat)
    (h : ∀ r ∈ rules, r.isLit = true) (dry nb : Bool) (fs : FS) (p : Path) :
    isErrE (migrateFileE rules dry nb fs p) = false := by
  unfold migrateFileE
  cases hfp : fs p with
  | absent => rfl
  | unreadable => rfl
  | file content0 =>
    rcases he : applyRulesE rules content0 with e | c
    · exfalso
      have := applyRulesE_lit_ok rules h (.ok content0) trivial
      unfold applyRulesE at he
      rw [he] at this
      exact this
    · simp only [he]
      split_ifs <;> rfl

lemma foldE_ok (rules : List RulePat) (h : ∀ r ∈ rules, r.isLit = true)
    (dry nb : Bool) :
    ∀ (l : List Path) (acc : Except FS FS), isErrE acc = false →
      isErrE (l.foldl (processE rules dry nb) acc) = false := by
  intro l
  induction l with
  | nil => intro acc hacc; exact hacc
  | cons p rest ih =>
    intro acc hacc
    rw [List.foldl_cons]
    apply ih
    cases acc with
    | error e => simp [isErrE] at hacc
    | ok fs =>
      simp only [processE]
      split
      · exact migrateFileE_ok rules h dry nb fs p
      · rfl

/-- C6 (amended): no validation happens at rule construction — the rule
tables are plain data — and a pattern error can only arise when a malformed
pattern is first applied during per-file processing (by which time earlier
files may already have been modified, see the counterexample); with
exclusively valid patterns a run never raises a pattern error. -/
theorem C6_no_construction_validation (pyR tomlR : List RulePat)
    (h1 : ∀ r ∈ pyR, r.isLit = true) (h2 : ∀ r ∈ tomlR, r.isLit = true)
    (dry nb : Bool) (fs : FS) (pys tomls : List Path) :
    isErrE (runE pyR tomlR dry nb fs pys tomls) = false := by
  unfold runE
  exact foldE_ok tomlR h2 dry nb tomls _ (foldE_ok pyR h1 dry nb pys _ rfl)

/-- C6 (amended) at a concrete input. -/
theorem C6_no_construction_validation_witness :
    isErrE (runE exGoodRules exGoodRules false false exFsC6
        [exPyPath] [exTomlPath]) = false :=
  C6_no_construction_validation exGoodRules exGoodRules (by decide) (by decide)
    false false exFsC6 [exPyPath] [exTomlPath]

end Migration
